import Mathlib

/-!
Verification development for the `dawg_python` read-only DAWG engine
(`units.py`, `wrapper.py`, `dawgs.py`).

Modelling conventions:
* 32-bit units are `Nat` with explicit masking by `PRECISION_MASK = 2^32 - 1`,
  exactly where the source masks.
* Python sequence indexing that can raise `IndexError` is modelled in the
  `Except String` monad: `.error "IndexError"` stands for the raised fault,
  `.ok` for normal return (including the "key absent" outcomes `none` / `-1`,
  which the source reports as values, not exceptions).
* Unbounded `while` loops of the source that are not structurally decreasing
  (`Completer._find_terminal`, the `keys` iteration, `_similar_keys`
  recursion) take an explicit fuel argument and report exhaustion as
  `.error "fuel"`; theorems about results are stated on `.ok` outcomes, and
  witnesses instantiate the fuel concretely.
* The completer's index stack is a `List Nat` with the top of the stack at
  the head (Python appends/pops at the right end and reads `[-1]`; the head
  of the Lean list plays the role of that right end, so the bottom of the
  stack is the last element of the list).
-/

set_option maxRecDepth 100000

instance {ε α : Type} [DecidableEq ε] [DecidableEq α] : DecidableEq (Except ε α) :=
  fun a b =>
    match a, b with
    | .ok x, .ok y =>
      if h : x = y then .isTrue (by rw [h]) else .isFalse (by simp [h])
    | .error x, .error y =>
      if h : x = y then .isTrue (by rw [h]) else .isFalse (by simp [h])
    | .ok _, .error _ => .isFalse (by simp)
    | .error _, .ok _ => .isFalse (by simp)

namespace units

/-- `PRECISION_MASK = 0xFFFFFFFF` from `units.py`. -/
def PRECISION_MASK : Nat := 0xFFFFFFFF

/-- `IS_LEAF_BIT = 1 << 31` from `units.py`. -/
def IS_LEAF_BIT : Nat := 1 <<< 31

/-- `HAS_LEAF_BIT = 1 << 8` from `units.py`. -/
def HAS_LEAF_BIT : Nat := 1 <<< 8

/-- `EXTENSION_BIT = 1 << 9` from `units.py`. -/
def EXTENSION_BIT : Nat := 1 <<< 9

/-- `units.has_leaf`: check if a unit has a leaf as a child. -/
def has_leaf (base : Nat) : Bool := base &&& HAS_LEAF_BIT != 0

/-- `units.value`: `base & (~IS_LEAF_BIT & PRECISION_MASK)`; in Python the
complement of `1 << 31` intersected with the 32-bit mask is `0x7FFFFFFF`. -/
def value (base : Nat) : Nat := base &&& 0x7FFFFFFF

/-- `units.label`: `base & (IS_LEAF_BIT | 0xFF)`. -/
def label (base : Nat) : Nat := base &&& (IS_LEAF_BIT ||| 0xFF)

/-- `units.offset`: `((base >> 10) << ((base & EXTENSION_BIT) >> 6)) & PRECISION_MASK`. -/
def offset (base : Nat) : Nat :=
  ((base >>> 10) <<< ((base &&& EXTENSION_BIT) >>> 6)) &&& PRECISION_MASK

end units

/-- `wrapper.Dictionary`: an immutable array of 32-bit units. -/
structure Dictionary where
  units : List Nat
deriving Repr, DecidableEq

namespace Dictionary

/-- `Dictionary.ROOT = 0`. -/
def ROOT : Nat := 0

/-- Python `self._units[index]`: `.ok` the element when in range,
`.error "IndexError"` otherwise (the raised `IndexError`). -/
def getU (d : Dictionary) (index : Nat) : Except String Nat :=
  match d.units.get? index with
  | some u => .ok u
  | none => .error "IndexError"

/-- `Dictionary.has_value`: `units.has_leaf(self._units[index])`. -/
def has_value (d : Dictionary) (index : Nat) : Except String Bool := do
  let u ← d.getU index
  return units.has_leaf u

/-- `Dictionary.value`: value read through the companion leaf unit at
`(index ^ offset(unit[index])) & PRECISION_MASK`. -/
def value (d : Dictionary) (index : Nat) : Except String Nat := do
  let u ← d.getU index
  let offset := units.offset u
  let value_index := (index ^^^ offset) &&& units.PRECISION_MASK
  let v ← d.getU value_index
  return units.value v

/-- `Dictionary.follow_char`: follow one byte transition; `some` the next
index when the label there matches, `none` otherwise. -/
def follow_char (d : Dictionary) (label index : Nat) : Except String (Option Nat) := do
  let u ← d.getU index
  let offset := units.offset u
  let next_index := (index ^^^ offset ^^^ label) &&& units.PRECISION_MASK
  let v ← d.getU next_index
  if units.label v != label then
    return none
  else
    return (some next_index)

/-- `Dictionary.follow_bytes`: fold `follow_char` over a byte string,
short-circuiting to `none` on the first miss. -/
def follow_bytes (d : Dictionary) (s : List Nat) (index : Nat) :
    Except String (Option Nat) := do
  match s with
  | [] => return (some index)
  | ch :: rest =>
    match ← d.follow_char ch index with
    | none => return none
    | some index2 => d.follow_bytes rest index2

/-- `Dictionary.contains`: follow the whole key from the root, then test
`has_value` there. -/
def contains (d : Dictionary) (key : List Nat) : Except String Bool := do
  match ← d.follow_bytes key ROOT with
  | none => return false
  | some index => d.has_value index

/-- `Dictionary.find`: like `contains` but returns the stored value, with
`-1` as the absence sentinel. -/
def find (d : Dictionary) (key : List Nat) : Except String Int := do
  match ← d.follow_bytes key ROOT with
  | none => return (-1)
  | some index =>
    if !(← d.has_value index) then
      return (-1)
    else
      return (Int.ofNat (← d.value index))

end Dictionary

/-- `wrapper.Guide`: an immutable array of bytes, two per node index. -/
structure Guide where
  units : List Nat
deriving Repr, DecidableEq

namespace Guide

/-- `Guide.ROOT = 0`. -/
def ROOT : Nat := 0

/-- Python `self._units[i]` on the guide byte array. -/
def getU (g : Guide) (i : Nat) : Except String Nat :=
  match g.units.get? i with
  | some u => .ok u
  | none => .error "IndexError"

/-- `Guide.child`: `self._units[index * 2]`. -/
def child (g : Guide) (index : Nat) : Except String Nat :=
  g.getU (index * 2)

/-- `Guide.sibling`: `self._units[index * 2 + 1]`. -/
def sibling (g : Guide) (index : Nat) : Except String Nat :=
  g.getU (index * 2 + 1)

/-- `Guide.size`: `len(self._units)`. -/
def size (g : Guide) : Nat := g.units.length

end Guide

/-- `wrapper.Completer` state: key buffer, index stack (top of stack at the
head of the list), and the last index recorded for value retrieval. -/
structure Completer where
  key : List Nat
  index_stack : List Nat
  last_index : Nat
deriving Repr, DecidableEq

namespace Completer

/-- `Completer.start`: key buffer from the prefix; the stack holds the start
index when the guide is non-empty, else it is empty.  The source leaves
`_last_index` untouched in the empty-guide branch (it is never read there,
since `next` bails out on the empty stack first); we pick `ROOT` for it. -/
def start (g : Guide) (index : Nat) (pfx : List Nat) : Completer :=
  if g.size ≠ 0 then ⟨pfx, [index], Dictionary.ROOT⟩
  else ⟨pfx, [], Dictionary.ROOT⟩

/-- `Completer._follow`: try one transition; on success append the label to
the key buffer and push the next index; on a miss leave the state alone. -/
def _follow (d : Dictionary) (label index : Nat) (stack key : List Nat) :
    Except String (Option (Nat × List Nat × List Nat)) := do
  match ← d.follow_char label index with
  | none => return none
  | some next_index => return (some (next_index, next_index :: stack, key ++ [label]))

/-- `Completer._find_terminal`: descend through first children (as given by
`Guide.child`) until a node with `has_value` is reached.  Returns
`some last_index` with the final stack and key on success, `none` with the
state at the failing step when a child transition misses.  The source loop
has no structural bound, so it takes fuel. -/
def find_terminal (d : Dictionary) (g : Guide) :
    Nat → Nat → List Nat → List Nat →
    Except String (Option Nat × List Nat × List Nat)
  | 0, _, _, _ => .error "fuel"
  | fuel + 1, index, stack, key => do
    if ← d.has_value index then
      return (some index, stack, key)
    else
      let label ← g.child index
      match ← _follow d label index stack key with
      | none => return (none, stack, key)
      | some (next_index, stack2, key2) => find_terminal d g fuel next_index stack2 key2

/-- The backtracking `while True` loop inside `Completer.next`: read the
sibling label of the current top, pop a byte off the key buffer and pop the
stack; stop with failure when the stack empties; when the recorded sibling
label is non-zero, follow it from the new top and stop; otherwise repeat.
Returns `(some index, stack, key)` when breaking out to the terminal
descent, `(none, stack, key)` when `next` is to return false.  The source
pops the stack it just read the top of, so the list cannot be empty; the
`[]` case mirrors the `IndexError` a pop from an empty list would raise. -/
def backtrack (d : Dictionary) (g : Guide) :
    List Nat → List Nat → Except String (Option Nat × List Nat × List Nat)
  | [], _ => .error "IndexError"
  | index :: rest, key => do
    let sibling_label ← g.sibling index
    let key2 := if key.length > 0 then key.dropLast else key
    match rest with
    | [] => return (none, rest, key2)
    | index2 :: _ =>
      if sibling_label ≠ 0 then
        match ← _follow d sibling_label index2 rest key2 with
        | none => return (none, rest, key2)
        | some (next_index, stack3, key3) => return (some next_index, stack3, key3)
      else
        backtrack d g rest key2

/-- `Completer.next`: produce the next key into the buffer; `(true, state)`
when a key was produced, `(false, state)` when enumeration is exhausted or a
transition misses. -/
def next (d : Dictionary) (g : Guide) (fuel : Nat) (c : Completer) :
    Except String (Bool × Completer) := do
  match c.index_stack with
  | [] => return (false, c)
  | index :: _ => do
    let step ←
      if c.last_index ≠ Dictionary.ROOT then do
        let child_label ← g.child index
        if child_label ≠ 0 then do
          match ← _follow d child_label index c.index_stack c.key with
          | none => pure (none, c.index_stack, c.key)
          | some (next_index, stack2, key2) => find_terminal d g fuel next_index stack2 key2
        else do
          match ← backtrack d g c.index_stack c.key with
          | (none, stack2, key2) => pure ((none : Option Nat), stack2, key2)
          | (some index2, stack2, key2) => find_terminal d g fuel index2 stack2 key2
      else
        find_terminal d g fuel index c.index_stack c.key
    match step with
    | (none, stack2, key2) => return (false, ⟨key2, stack2, c.last_index⟩)
    | (some last, stack2, key2) => return (true, ⟨key2, stack2, last⟩)

end Completer

/-- The `while completer.next(): yield completer.key` loop of
`CompletionDAWG.iterkeys`, collected into a list.  `steps` bounds the number
of `next` calls, `fuel` the inner terminal descents. -/
def nextKeys (d : Dictionary) (g : Guide) (fuel : Nat) :
    Nat → Completer → Except String (List (List Nat))
  | 0, _ => .error "fuel"
  | steps + 1, c => do
    match ← Completer.next d g fuel c with
    | (false, _) => return []
    | (true, c2) => return (c2.key :: (← nextKeys d g fuel steps c2))

/-- `CompletionDAWG.iterkeys`/`keys` at the byte level: resolve the prefix
from the root, then drive a fresh completer from the resolved index. -/
def keys (d : Dictionary) (g : Guide) (fuel steps : Nat) (pfx : List Nat) :
    Except String (List (List Nat)) := do
  match ← d.follow_bytes pfx Dictionary.ROOT with
  | none => return []
  | some index => nextKeys d g fuel steps (Completer.start g index pfx)

/-- `struct.unpack("=I", fp.read(4))`: consume four bytes as a little-endian
32-bit count; `struct.error` when the stream ends first. -/
def unpackU32 : List Nat → Except String (Nat × List Nat)
  | b0 :: b1 :: b2 :: b3 :: rest =>
    .ok (b0 ||| (b1 <<< 8) ||| (b2 <<< 16) ||| (b3 <<< 24), rest)
  | _ => .error "struct.error"

/-- `array("I").fromfile(fp, n)`: consume `n` four-byte little-endian units;
`EOFError` when the stream runs out first. -/
def readUnits : Nat → List Nat → Except String (List Nat × List Nat)
  | 0, stream => .ok ([], stream)
  | n + 1, b0 :: b1 :: b2 :: b3 :: rest => do
    let (us, rest2) ← readUnits n rest
    return ((b0 ||| (b1 <<< 8) ||| (b2 <<< 16) ||| (b3 <<< 24)) :: us, rest2)
  | _ + 1, _ => .error "EOFError"

/-- `array("B").fromfile(fp, n)`: consume `n` raw bytes. -/
def readBytes : Nat → List Nat → Except String (List Nat × List Nat)
  | 0, stream => .ok ([], stream)
  | n + 1, b :: rest => do
    let (bs, rest2) ← readBytes n rest
    return (b :: bs, rest2)
  | _ + 1, [] => .error "EOFError"

/-- `Dictionary.read`: a 4-byte unit count, then that many 32-bit units. -/
def Dictionary.read (stream : List Nat) : Except String (Dictionary × List Nat) := do
  let (base_size, s1) ← unpackU32 stream
  let (us, s2) ← readUnits base_size s1
  return (⟨us⟩, s2)

/-- `Guide.read`: a 4-byte count, then twice that many guide bytes. -/
def Guide.read (stream : List Nat) : Except String (Guide × List Nat) := do
  let (base_size, s1) ← unpackU32 stream
  let (bs, s2) ← readBytes (base_size * 2) s1
  return (⟨bs⟩, s2)

/-- `DAWG.load`: read a dictionary from a byte stream. -/
def DAWG.load (stream : List Nat) : Except String (Dictionary × List Nat) :=
  Dictionary.read stream

/-- `CompletionDAWG.load`: read the dictionary, then the guide, from one
stream. -/
def CompletionDAWG.load (stream : List Nat) :
    Except String (Dictionary × Guide × List Nat) := do
  let (d, s1) ← Dictionary.read stream
  let (g, s2) ← Guide.read s1
  return (d, g, s2)

/-- The `for ch in key` loop of `DAWG.prefixes`: note the source breaks on
`if not index`, so a transition landing on index 0 also stops the walk. -/
def prefixesLoop (d : Dictionary) (key : List Nat) :
    List Nat → Nat → Nat → Except String (List (List Nat))
  | [], _, _ => .ok []
  | ch :: rest, index, pos => do
    match ← d.follow_char ch index with
    | none => return []
    | some 0 => return []
    | some index2 => do
      let hv ← d.has_value index2
      let tail ← prefixesLoop d key rest index2 (pos + 1)
      return (if hv then key.take pos :: tail else tail)

/-- `DAWG.prefixes` at the byte level: walk the key from the root, recording
each consumed prefix whose node `has_value`. -/
def prefixes (d : Dictionary) (key : List Nat) : Except String (List (List Nat)) :=
  prefixesLoop d key key Dictionary.ROOT 1

/-- UTF-8 encoding of one code point, as Python `str.encode("utf8")` does
per character. -/
def utf8EncodeChar (c : Char) : List Nat :=
  let n := c.toNat
  if n < 0x80 then [n]
  else if n < 0x800 then
    [0xC0 ||| (n >>> 6), 0x80 ||| (n &&& 0x3F)]
  else if n < 0x10000 then
    [0xE0 ||| (n >>> 12), 0x80 ||| ((n >>> 6) &&& 0x3F), 0x80 ||| (n &&& 0x3F)]
  else
    [0xF0 ||| (n >>> 18), 0x80 ||| ((n >>> 12) &&& 0x3F),
     0x80 ||| ((n >>> 6) &&& 0x3F), 0x80 ||| (n &&& 0x3F)]

/-- UTF-8 encoding of a unicode string (modelled as its code points). -/
def encodeUtf8 (s : List Char) : List Nat := (s.map utf8EncodeChar).flatten

/-- A replacement-table value: Python accepts a single string or a list of
strings. -/
inductive ReplVal
  | str (s : List Char)
  | list (l : List (List Char))
deriving Repr, DecidableEq

instance : Inhabited ReplVal := ⟨ReplVal.str []⟩

/-- Compiled replacement table: encoded key byte string mapped to the list
of (encoded replacement bytes, replacement string) pairs. -/
abbrev CompiledReplaces : Type := List (List Nat × List (List Nat × List Char))

/-- The validation loop of `DAWG.compile_replaces`: the message of the first
raised `ValueError`, or `none` when the mapping passes. -/
def replacesError : List (List Char × ReplVal) → Option String
  | [] => none
  | (k, v) :: rest =>
    if k.length ≠ 1 then some "Keys must be single-char unicode strings."
    else
      match v with
      | .str s =>
        if s.length ≠ 1 then
          some "Values must be single-char unicode strings or non-empty lists of such."
        else replacesError rest
      | .list l =>
        if l.any (fun e => e.length ≠ 1) || l.length < 1 then
          some "Values must be single-char unicode strings or non-empty lists of such."
        else replacesError rest

/-- The comprehension body of `compile_replaces`: iterating a string yields
its characters, iterating a list yields its entries. -/
def compileEntries : ReplVal → List (List Nat × List Char)
  | .str s => s.map (fun ch => (utf8EncodeChar ch, [ch]))
  | .list l => l.map (fun e => (encodeUtf8 e, e))

/-- `DAWG.compile_replaces`: validate every entry, then build the compiled
table. -/
def compile_replaces (rs : List (List Char × ReplVal)) :
    Except String CompiledReplaces :=
  match replacesError rs with
  | some msg => .error msg
  | none => .ok (rs.map (fun p => (encodeUtf8 p.1, compileEntries p.2)))

mutual

/-- `DAWG._similar_keys`: run the query walk (`similarLoop`) from
`start_pos = len(current_prefix)`; when the walk completes without a break
and the final node `has_value`, the exact match is inserted at the front of
the accumulated substitution results.  The recursion through substitution
branches has no structural bound when a replacement value is empty, so the
whole mutual nest takes fuel, spent on every call. -/
def _similar_keys (d : Dictionary) (rc : CompiledReplaces) :
    Nat → List Char → List Char → Nat → Except String (List (List Char))
  | 0, _, _, _ => .error "fuel"
  | fuel + 1, current_pfx, key, index => do
    let start_pos := current_pfx.length
    let (res, fin) ←
      similarLoop d rc fuel current_pfx key (key.length - start_pos) start_pos index
    match fin with
    | none => return res
    | some index2 =>
      if ← d.has_value index2 then
        return ((current_pfx ++ key.drop start_pos) :: res)
      else
        return res
termination_by structural fuel _ _ _ => fuel

/-- The `while word_pos < end_pos` loop of `_similar_keys`: at each query
position, first explore every configured replacement branch, then follow
the query's own byte; note the source breaks on `index is None` (an index
of 0 does not break here).  Returns the substitution results collected so
far and the final index when the loop ran to completion. -/
def similarLoop (d : Dictionary) (rc : CompiledReplaces) :
    Nat → List Char → List Char → Nat → Nat → Nat →
    Except String (List (List Char) × Option Nat)
  | 0, _, _, _, _, _ => .error "fuel"
  | _ + 1, _, _, 0, _, index => .ok ([], some index)
  | fuel + 1, current_pfx, key, rem + 1, word_pos, index => do
    let b_step := utf8EncodeChar (key.getD word_pos 'a')
    let sub ←
      match rc.lookup b_step with
      | none => pure []
      | some entries => substBranches d rc fuel current_pfx key word_pos index entries
    match ← d.follow_bytes b_step index with
    | none => return (sub, none)
    | some index2 => do
      let (rest, fin) ← similarLoop d rc fuel current_pfx key rem (word_pos + 1) index2
      return (sub ++ rest, fin)
termination_by structural fuel _ _ _ _ _ => fuel

/-- The `for b_replace_char, u_replace_char in replace_chars[b_step]` loop
of `_similar_keys`: a branch is explored only when `follow_bytes` lands on
a truthy index (the source's `if next_index:` also rejects index 0). -/
def substBranches (d : Dictionary) (rc : CompiledReplaces) :
    Nat → List Char → List Char → Nat → Nat → List (List Nat × List Char) →
    Except String (List (List Char))
  | 0, _, _, _, _, _ => .error "fuel"
  | _ + 1, _, _, _, _, [] => .ok []
  | fuel + 1, current_pfx, key, word_pos, index, (b_rep, u_rep) :: rest => do
    let start_pos := current_pfx.length
    let r ←
      match ← d.follow_bytes b_rep index with
      | none => pure []
      | some 0 => pure []
      | some next_index =>
        _similar_keys d rc fuel
          (current_pfx ++ (key.drop start_pos).take (word_pos - start_pos) ++ u_rep)
          key next_index
    let rs ← substBranches d rc fuel current_pfx key word_pos index rest
    return (r ++ rs)
termination_by structural fuel _ _ _ _ _ => fuel

end

/-- `DAWG.similar_keys`: all variants of the key under the compiled
replacement table, starting from an empty prefix at the root. -/
def similar_keys (d : Dictionary) (fuel : Nat) (key : List Char)
    (rc : CompiledReplaces) : Except String (List (List Char)) :=
  _similar_keys d rc fuel [] key Dictionary.ROOT

/-- `LOOKUP_ERROR = -1` from `dawgs.py`. -/
def LOOKUP_ERROR : Int := -1

/-- `IntDAWG.get`: `find`, with the `-1` sentinel mapped to the default. -/
def IntDAWG.get (d : Dictionary) (key : List Nat) (default : Option Int) :
    Except String (Option Int) := do
  let res ← d.find key
  if res = LOOKUP_ERROR then return default else return (some res)

/-- Example dictionary holding exactly the key `[1]` with value `5`
(hand-laid double-array: root offset 98 is irrelevant here, the layout below
is for the later "color" example; this small one keeps offsets tiny). -/
def dictA : Dictionary :=
  ⟨[4 <<< 10, 0x80000005, 0, 0, 0, (4 <<< 10) ||| 256 ||| 1]⟩

example : dictA.follow_char 1 0 = .ok (some 5) := by decide
example : dictA.contains [1] = .ok true := by decide
example : dictA.find [1] = .ok 5 := by decide
example : dictA.contains [5] = .ok false := by decide
example : dictA.contains [3] = .error "IndexError" := by decide

/-- Hand-laid double-array trie holding exactly the key "color"
(bytes 99,111,108,111,114) with value 7.  Offsets: root 98, then 108, 109,
104, 115 along the path, terminal unit at index 5 with `HAS_LEAF` set and
offset 3 pointing at the leaf unit at index 6.  Padded with zero units so
that every candidate index probed by the queries below stays in range. -/
def colorDict : Dictionary :=
  ⟨[98 <<< 10,
    (108 <<< 10) ||| 99,
    (109 <<< 10) ||| 111,
    (104 <<< 10) ||| 108,
    (115 <<< 10) ||| 111,
    (3 <<< 10) ||| 256 ||| 114,
    (1 <<< 31) ||| 7] ++ List.replicate 121 0⟩

/-- Guide for `colorDict`: each path node's first child is the next byte of
"color"; no node has a sibling. -/
def colorGuide : Guide :=
  ⟨[99, 0, 111, 0, 108, 0, 111, 0, 114, 0, 0, 0] ++ List.replicate 244 0⟩

/-- The byte string of "color". -/
def colorBytes : List Nat := [99, 111, 108, 111, 114]

example : colorDict.contains colorBytes = .ok true := by decide
example : colorDict.find colorBytes = .ok 7 := by decide
example : colorDict.contains [99, 111] = .ok false := by decide
example : keys colorDict colorGuide 8 4 [] = .ok [colorBytes] := by decide
example : keys colorDict colorGuide 8 4 [99, 111] = .ok [colorBytes] := by decide
example : keys colorDict colorGuide 8 4 [120] = .ok [] := by decide
example : prefixes colorDict colorBytes = .ok [colorBytes] := by decide

/-- Hand-laid trie holding the keys "a" (byte 97) and "ab" (97, 98), both
with `HAS_LEAF` set (no leaf units; `value` is never consulted in the
enumeration claims this dictionary serves).  Root offset 96, node "a" at
index 1 with offset 96, node "ab" at index 3. -/
def dictAB : Dictionary :=
  ⟨[96 <<< 10,
    (96 <<< 10) ||| 256 ||| 97,
    0,
    256 ||| 98]⟩

/-- Guide for `dictAB` as the enumeration claims expect, except that the
root's sibling slot (never meaningful for a start node) is set to 97. -/
def guideAB : Guide := ⟨[97, 97, 98, 0, 0, 0, 0, 0]⟩

/-- Variant of `guideAB` whose node-1 sibling slot is 97, used to exercise
the backtracking loop's follow-from-new-top step. -/
def guideAB2 : Guide := ⟨[97, 97, 98, 97, 0, 0, 0, 0]⟩

example : dictAB.contains [97] = .ok true := by decide
example : dictAB.contains [97, 98] = .ok true := by decide
example : keys dictAB guideAB 8 4 [] = .ok [[97], [97, 98]] := by decide

/-- The compiled form of the replacement mapping `{"o": ["0"]}`. -/
def rcO0 : CompiledReplaces := [([111], [([48], ['0'])])]

/-- The compiled form of the replacement mapping `{"0": ["o"]}`. -/
def rc0O : CompiledReplaces := [([48], [([111], ['o'])])]

example : compile_replaces [(['o'], .list [['0']])] = .ok rcO0 := by decide
example : compile_replaces [(['0'], .list [['o']])] = .ok rc0O := by decide

/-- The 32-bit mask is reduction modulo `2^32`. -/
lemma and_mask_eq_mod (x : Nat) : x &&& units.PRECISION_MASK = x % 2 ^ 32 := by
  have h : units.PRECISION_MASK = 2 ^ 32 - 1 := by decide
  rw [h, Nat.and_pow_two_sub_one_eq_mod]

/-- For a genuine 32-bit unit, the decoded offset is `(u >> 10) << 8` when
the extension bit is set and `(u >> 10)` otherwise; the trailing 32-bit
mask in the source is the identity there. -/
lemma offset_formula (u : Nat) (h : u < 2 ^ 32) :
    units.offset u = (u >>> 10) <<< (if u &&& (1 <<< 9) ≠ 0 then 8 else 0) := by
  have hdiv : u >>> 10 < 2 ^ 22 := by
    rw [Nat.shiftRight_eq_div_pow]
    exact Nat.div_lt_of_lt_mul (by norm_num at h ⊢; omega)
  have hbit : u &&& 1 <<< 9 = (u.testBit 9).toNat * 2 ^ 9 := by
    have h2 := Nat.and_two_pow u 9
    norm_num at h2 ⊢
    exact h2
  have hext : u &&& units.EXTENSION_BIT = u &&& 1 <<< 9 := rfl
  unfold units.offset
  rw [hext, hbit]
  cases hb : u.testBit 9 with
  | false =>
    simp only [hb, Bool.toNat_false, Nat.zero_mul, Nat.zero_shiftRight,
      Nat.shiftLeft_zero, ne_eq, not_true_eq_false]
    rw [if_neg (by simp)]
    rw [and_mask_eq_mod, Nat.mod_eq_of_lt (lt_trans hdiv (by norm_num)),
      Nat.shiftLeft_zero]
  | true =>
    simp only [hb, Bool.toNat_true, Nat.one_mul]
    have hsh : ((2 : Nat) ^ 9) >>> 6 = 8 := by decide
    rw [hsh, if_pos (by norm_num)]
    rw [and_mask_eq_mod, Nat.mod_eq_of_lt]
    calc u >>> 10 <<< 8 = u >>> 10 * 2 ^ 8 := by rw [Nat.shiftLeft_eq]
    _ < 2 ^ 22 * 2 ^ 8 := mul_lt_mul_of_pos_right hdiv (by norm_num)
    _ ≤ 2 ^ 32 := by norm_num

/-- C1: for a loaded trie, an in-range index `i` and a byte `b`,
`follow_char` computes the candidate `j = (i XOR offset(unit[i]) XOR b) mod
2^32` with `offset(u) = (u >> 10) << 8` when bit 9 of `u` is set and
`(u >> 10)` otherwise, and returns `some j` exactly when the label of
`unit[j]` (its low 8 bits together with bit 31) equals `b`, else `none`.
The hypotheses supply the two units the walk reads (so both reads are in
range, as the claim's appeal to `unit[j]` presupposes) and record that a
loaded unit is a 32-bit value. -/
theorem C1_follow_byte (d : Dictionary) (i b u v : Nat)
    (hu : d.units.get? i = some u) (hu32 : u < 2 ^ 32)
    (hv : d.units.get?
      ((i ^^^ (u >>> 10) <<< (if u &&& 1 <<< 9 ≠ 0 then 8 else 0) ^^^ b) % 2 ^ 32) =
      some v) :
    d.follow_char b i =
      .ok (if v &&& (1 <<< 31 ||| 0xFF) = b
           then some ((i ^^^ (u >>> 10) <<< (if u &&& 1 <<< 9 ≠ 0 then 8 else 0) ^^^ b) % 2 ^ 32)
           else none) := by
  unfold Dictionary.follow_char Dictionary.getU
  rw [hu]
  simp only [bind, Except.bind]
  rw [and_mask_eq_mod, offset_formula u hu32] at *
  rw [hv]
  unfold units.label units.IS_LEAF_BIT
  simp only [bne_iff_ne, ne_eq, ite_not]
  split <;> rfl

/-- Closed instance of `C1_follow_byte` on `colorDict` at the root with
byte 99 (the first byte of "color"): the candidate index is 1 and the label
there matches, so the transition is taken. -/
theorem C1_follow_byte_witness :
    colorDict.follow_char 99 0 =
      .ok (if (110691 : Nat) &&& (1 <<< 31 ||| 0xFF) = 99
           then some (((0 : Nat) ^^^ ((98 <<< 10 : Nat) >>> 10) <<<
               (if (98 <<< 10 : Nat) &&& 1 <<< 9 ≠ 0 then 8 else 0) ^^^ 99) % 2 ^ 32)
           else none) :=
  C1_follow_byte colorDict 0 99 (98 <<< 10) 110691 (by decide) (by decide) (by decide)
example : similar_keys colorDict 50 "col0r".data rcO0 = .ok [] := by decide
example : similar_keys colorDict 50 "color".data rcO0 = .ok ["color".data] := by decide
example : similar_keys colorDict 50 "col0r".data rc0O = .ok ["color".data] := by decide

/-- A successful `unpackU32` consumed exactly four bytes. -/
lemma unpackU32_ok {s : List Nat} {N : Nat} {rest : List Nat}
    (h : unpackU32 s = .ok (N, rest)) : s.length = 4 + rest.length := by
  rcases s with _ | ⟨b0, _ | ⟨b1, _ | ⟨b2, _ | ⟨b3, r⟩⟩⟩⟩ <;>
    simp [unpackU32] at h
  obtain ⟨h1, h2⟩ := h
  subst h2
  simp only [List.length_cons]
  omega

/-- `unpackU32` on a stream shorter than four bytes raises. -/
lemma unpackU32_err {s : List Nat} (h : s.length < 4) :
    unpackU32 s = .error "struct.error" := by
  rcases s with _ | ⟨b0, _ | ⟨b1, _ | ⟨b2, _ | ⟨b3, r⟩⟩⟩⟩ <;>
    first
      | rfl
      | (exfalso; simp at h; omega)

/-- A successful `readUnits` delivered exactly the declared count and
consumed four bytes per unit. -/
lemma readUnits_ok (n : Nat) : ∀ s us rest, readUnits n s = .ok (us, rest) →
    us.length = n ∧ s.length = 4 * n + rest.length := by
  induction n with
  | zero =>
    intro s us rest h
    simp [readUnits] at h
    obtain ⟨h1, h2⟩ := h
    subst h1; subst h2
    simp
  | succ n ih =>
    intro s us rest h
    match s with
    | [] => simp [readUnits] at h
    | [b0] => simp [readUnits] at h
    | [b0, b1] => simp [readUnits] at h
    | [b0, b1, b2] => simp [readUnits] at h
    | b0 :: b1 :: b2 :: b3 :: r =>
      simp only [readUnits, bind, Except.bind] at h
      cases hrec : readUnits n r with
      | error e => rw [hrec] at h; simp at h
      | ok p =>
        rw [hrec] at h
        obtain ⟨us2, rest2⟩ := p
        simp [pure, Except.pure] at h
        obtain ⟨hus, hrest⟩ := h
        obtain ⟨h1, h2⟩ := ih r us2 rest2 hrec
        subst hus; subst hrest
        simp [List.length_cons]
        omega

/-- `readUnits` on a stream with fewer than four bytes per declared unit
raises. -/
lemma readUnits_err (n : Nat) : ∀ s, s.length < 4 * n →
    readUnits n s = .error "EOFError" := by
  induction n with
  | zero => intro s h; omega
  | succ n ih =>
    intro s h
    match s with
    | [] => rfl
    | [b0] => rfl
    | [b0, b1] => rfl
    | [b0, b1, b2] => rfl
    | b0 :: b1 :: b2 :: b3 :: r =>
      have hr : r.length < 4 * n := by simp at h; omega
      simp only [readUnits, bind, Except.bind, ih r hr]

/-- A successful `readBytes` delivered exactly the declared count. -/
lemma readBytes_ok (n : Nat) : ∀ s bs rest, readBytes n s = .ok (bs, rest) →
    bs.length = n ∧ s.length = n + rest.length := by
  induction n with
  | zero =>
    intro s bs rest h
    simp [readBytes] at h
    obtain ⟨h1, h2⟩ := h
    subst h1; subst h2
    simp
  | succ n ih =>
    intro s bs rest h
    match s with
    | [] => simp [readBytes] at h
    | b :: r =>
      simp only [readBytes, bind, Except.bind] at h
      cases hrec : readBytes n r with
      | error e => rw [hrec] at h; simp at h
      | ok p =>
        rw [hrec] at h
        obtain ⟨bs2, rest2⟩ := p
        simp [pure, Except.pure] at h
        obtain ⟨hbs, hrest⟩ := h
        obtain ⟨h1, h2⟩ := ih r bs2 rest2 hrec
        subst hbs; subst hrest
        simp [List.length_cons]
        omega

/-- `readBytes` past the end of the stream raises. -/
lemma readBytes_err (n : Nat) : ∀ s, s.length < n →
    readBytes n s = .error "EOFError" := by
  induction n with
  | zero => intro s h; omega
  | succ n ih =>
    intro s h
    match s with
    | [] => rfl
    | b :: r =>
      have hr : r.length < n := by simp at h; omega
      simp only [readBytes, bind, Except.bind, ih r hr]

/-- A successful `Dictionary.read` decomposes into a count read and a unit
read. -/
lemma Dictionary_read_ok {stream : List Nat} {d : Dictionary} {rest : List Nat}
    (h : Dictionary.read stream = .ok (d, rest)) :
    ∃ N s1, unpackU32 stream = .ok (N, s1) ∧ readUnits N s1 = .ok (d.units, rest) := by
  unfold Dictionary.read at h
  cases hu : unpackU32 stream with
  | error e => rw [hu] at h; simp [bind, Except.bind] at h
  | ok p =>
    obtain ⟨N, s1⟩ := p
    rw [hu] at h
    simp only [bind, Except.bind] at h
    cases hr : readUnits N s1 with
    | error e => rw [hr] at h; simp at h
    | ok q =>
      obtain ⟨us, r2⟩ := q
      rw [hr] at h
      simp [pure, Except.pure] at h
      obtain ⟨hd, hrest⟩ := h
      subst hrest
      refine ⟨N, s1, rfl, ?_⟩
      rw [← hd]
      exact hr

/-- A successful `Guide.read` decomposes into a count read and a byte
read. -/
lemma Guide_read_ok {stream : List Nat} {g : Guide} {rest : List Nat}
    (h : Guide.read stream = .ok (g, rest)) :
    ∃ M s1, unpackU32 stream = .ok (M, s1) ∧ readBytes (M * 2) s1 = .ok (g.units, rest) := by
  unfold Guide.read at h
  cases hu : unpackU32 stream with
  | error e => rw [hu] at h; simp [bind, Except.bind] at h
  | ok p =>
    obtain ⟨M, s1⟩ := p
    rw [hu] at h
    simp only [bind, Except.bind] at h
    cases hr : readBytes (M * 2) s1 with
    | error e => rw [hr] at h; simp at h
    | ok q =>
      obtain ⟨bs, r2⟩ := q
      rw [hr] at h
      simp [pure, Except.pure] at h
      obtain ⟨hg, hrest⟩ := h
      subst hrest
      refine ⟨M, s1, rfl, ?_⟩
      rw [← hg]
      exact hr

/-- C5: every variant loads by reading a 4-byte unit count `N` and then `N`
32-bit units, completion-capable variants additionally a 4-byte count `M`
and `2*M` guide bytes; a stream that ends before supplying the declared
counts makes the load call fail with the raised error (`struct.error` on a
truncated count, `EOFError` on a truncated array — the conditions the spec
groups as `CorruptDictionary`), and a successful load holds exactly the
declared counts, never a silently truncated partial structure. -/
theorem C5_load_spec (stream : List Nat) :
    (∀ d rest, Dictionary.read stream = .ok (d, rest) →
        ∃ N s1, unpackU32 stream = .ok (N, s1) ∧ d.units.length = N ∧
          stream.length = 4 + 4 * N + rest.length) ∧
    (stream.length < 4 → Dictionary.read stream = .error "struct.error") ∧
    (∀ N s1, unpackU32 stream = .ok (N, s1) → s1.length < 4 * N →
        Dictionary.read stream = .error "EOFError") ∧
    (∀ d g rest, CompletionDAWG.load stream = .ok (d, g, rest) →
        ∃ N M, d.units.length = N ∧ g.units.length = 2 * M ∧
          stream.length = 4 + 4 * N + 4 + 2 * M + rest.length) ∧
    (∀ d s1, Dictionary.read stream = .ok (d, s1) →
        (s1.length < 4 → CompletionDAWG.load stream = .error "struct.error") ∧
        ∀ M s2, unpackU32 s1 = .ok (M, s2) → s2.length < 2 * M →
          CompletionDAWG.load stream = .error "EOFError") := by
  refine ⟨?_, ?_, ?_, ?_, ?_⟩
  · intro d rest h
    obtain ⟨N, s1, hu, hr⟩ := Dictionary_read_ok h
    obtain ⟨hlen, hs1⟩ := readUnits_ok N s1 d.units rest hr
    exact ⟨N, s1, hu, hlen, by have := unpackU32_ok hu; omega⟩
  · intro hshort
    unfold Dictionary.read
    rw [unpackU32_err hshort]
    rfl
  · intro N s1 hu hl
    unfold Dictionary.read
    rw [hu]
    simp only [bind, Except.bind]
    rw [readUnits_err N s1 hl]
  · intro d g rest h
    unfold CompletionDAWG.load at h
    cases hd : Dictionary.read stream with
    | error e => rw [hd] at h; simp [bind, Except.bind] at h
    | ok p =>
      obtain ⟨d1, s1⟩ := p
      rw [hd] at h
      simp only [bind, Except.bind] at h
      cases hg : Guide.read s1 with
      | error e => rw [hg] at h; simp at h
      | ok q =>
        obtain ⟨g1, s2⟩ := q
        rw [hg] at h
        simp [pure, Except.pure] at h
        obtain ⟨h1, h2, h3⟩ := h
        subst h1; subst h2; subst h3
        obtain ⟨N, t1, hu1, hr1⟩ := Dictionary_read_ok hd
        obtain ⟨hlen1, hlen1s⟩ := readUnits_ok N t1 _ _ hr1
        obtain ⟨M, t2, hu2, hr2⟩ := Guide_read_ok hg
        obtain ⟨hlen2, hlen2s⟩ := readBytes_ok (M * 2) t2 _ _ hr2
        refine ⟨N, M, hlen1, by omega, ?_⟩
        have e1 := unpackU32_ok hu1
        have e2 := unpackU32_ok hu2
        omega
  · intro d s1 hd
    constructor
    · intro hshort
      unfold CompletionDAWG.load
      rw [hd]
      simp only [bind, Except.bind]
      unfold Guide.read
      rw [unpackU32_err hshort]
      rfl
    · intro M s2 hu2 hl
      unfold CompletionDAWG.load
      rw [hd]
      simp only [bind, Except.bind]
      unfold Guide.read
      rw [hu2]
      simp only [bind, Except.bind]
      rw [readBytes_err (M * 2) s2 (by omega)]

/-- Closed instance of `C5_load_spec`: a stream declaring two units but
supplying only one is rejected with the truncation error, never loaded as a
partial structure. -/
theorem C5_load_spec_witness :
    Dictionary.read [2, 0, 0, 0, 9, 9, 9, 9] = .error "EOFError" :=
  (C5_load_spec [2, 0, 0, 0, 9, 9, 9, 9]).2.2.1 2 [9, 9, 9, 9] (by decide) (by decide)

/-- In-bounds `getU` yields the stored unit. -/
lemma getU_total {d : Dictionary} {i : Nat} (h : i < d.units.length) :
    d.getU i = .ok (d.units.getD i 0) := by
  have h1 : d.units.get? i = some (d.units.getD i 0) := by
    rw [List.get?_eq_getElem?, List.getElem?_eq_getElem h,
      List.getD_eq_getElem?_getD, List.getElem?_eq_getElem h]
    rfl
  unfold Dictionary.getU
  rw [h1]

/-- Well-formedness for totality: the unit array is non-empty and, from any
in-range index, both the value-companion index and every byte's candidate
index stay in range. -/
def Bounded (d : Dictionary) : Prop :=
  0 < d.units.length ∧
  ∀ i, i < d.units.length →
    ((i ^^^ units.offset (d.units.getD i 0)) &&& units.PRECISION_MASK) < d.units.length ∧
    ∀ b, b < 256 →
      ((i ^^^ units.offset (d.units.getD i 0) ^^^ b) &&& units.PRECISION_MASK) < d.units.length

/-- When both reads are in range, `follow_char` is the label-checked
candidate computation, with no fault. -/
lemma follow_char_eq {d : Dictionary} {b i : Nat} (hi : i < d.units.length)
    (hnext : (i ^^^ units.offset (d.units.getD i 0) ^^^ b) &&& units.PRECISION_MASK <
      d.units.length) :
    d.follow_char b i = .ok (
      if units.label (d.units.getD
            ((i ^^^ units.offset (d.units.getD i 0) ^^^ b) &&& units.PRECISION_MASK) 0) = b
      then some ((i ^^^ units.offset (d.units.getD i 0) ^^^ b) &&& units.PRECISION_MASK)
      else none) := by
  unfold Dictionary.follow_char
  rw [getU_total hi]
  simp only [bind, Except.bind]
  rw [getU_total hnext]
  simp only [bne_iff_ne, ne_eq, ite_not]
  split <;> rfl

/-- On a `Bounded` dictionary, one transition never faults and lands in
range. -/
lemma follow_char_total {d : Dictionary} (h : Bounded d) {b i : Nat}
    (hi : i < d.units.length) (hb : b < 256) :
    ∃ r, d.follow_char b i = .ok r ∧ ∀ j, r = some j → j < d.units.length := by
  have hnext := ((h.2 i hi).2 b hb)
  refine ⟨_, follow_char_eq hi hnext, ?_⟩
  intro j hj
  split at hj
  · rw [Option.some_inj] at hj
    rw [← hj]
    exact hnext
  · cases hj

/-- On a `Bounded` dictionary, a whole walk never faults and lands in
range. -/
lemma follow_bytes_total {d : Dictionary} (h : Bounded d) :
    ∀ (key : List Nat) (i : Nat), i < d.units.length → (∀ b ∈ key, b < 256) →
    ∃ r, d.follow_bytes key i = .ok r ∧ ∀ j, r = some j → j < d.units.length := by
  intro key
  induction key with
  | nil =>
    intro i hi _
    refine ⟨some i, rfl, ?_⟩
    intro j hj
    rw [Option.some_inj] at hj
    rw [← hj]
    exact hi
  | cons b rest ih =>
    intro i hi hk
    have hb : b < 256 := hk b (List.mem_cons_self b rest)
    obtain ⟨r, hr, hrange⟩ := follow_char_total h hi hb
    unfold Dictionary.follow_bytes
    rw [hr]
    simp only [bind, Except.bind]
    cases r with
    | none => exact ⟨none, rfl, by intro j hj; cases hj⟩
    | some j =>
      have hj : j < d.units.length := hrange j rfl
      have hrest : ∀ x ∈ rest, x < 256 := fun x hx => hk x (List.mem_cons_of_mem b hx)
      exact ih j hj hrest

/-- C6 fails as stated: this dictionary loads from a well-formed stream
(one declared unit, one supplied unit), yet `contains` and `find` on the
single-byte key 1 raise `IndexError`, because the candidate index 1
computed by the transition lies outside the one-element unit array. -/
theorem C6_counterexample :
    DAWG.load [1, 0, 0, 0, 0, 0, 0, 0] = .ok (⟨[0]⟩, []) ∧
    Dictionary.contains ⟨[0]⟩ [1] = .error "IndexError" ∧
    Dictionary.find ⟨[0]⟩ [1] = .error "IndexError" := by
  refine ⟨by decide, by decide, by decide⟩

/-- C6 amended: on a loaded dictionary all of whose candidate indices (for
any byte) and value-companion indices stay inside the unit array,
`contains` and `find` are total: they return an answer for every byte
string and never raise. -/
theorem C6_amended (d : Dictionary) (h : Bounded d) (key : List Nat)
    (hk : ∀ b ∈ key, b < 256) :
    (∃ bv, d.contains key = .ok bv) ∧ (∃ v, d.find key = .ok v) := by
  obtain ⟨r, hr, hrange⟩ := follow_bytes_total h key Dictionary.ROOT h.1 hk
  constructor
  · unfold Dictionary.contains
    rw [hr]
    simp only [bind, Except.bind]
    cases r with
    | none => exact ⟨false, rfl⟩
    | some j =>
      have hj := hrange j rfl
      simp only [Dictionary.has_value, bind, Except.bind, getU_total hj]
      exact ⟨_, rfl⟩
  · unfold Dictionary.find
    rw [hr]
    simp only [bind, Except.bind]
    cases r with
    | none => exact ⟨-1, rfl⟩
    | some j =>
      have hj := hrange j rfl
      have hval := (h.2 j hj).1
      simp only [Dictionary.has_value, Dictionary.value, bind, Except.bind,
        pure, Except.pure, getU_total hj, getU_total hval]
      split
      · exact ⟨_, rfl⟩
      · exact ⟨_, rfl⟩

/-- The all-zero 256-unit dictionary used to instantiate `C6_amended`. -/
def d256 : Dictionary := ⟨List.replicate 256 0⟩

/-- `d256` satisfies `Bounded`: every unit is 0, so every offset is 0 and
every candidate index is an XOR of two values below 256. -/
lemma bounded_d256 : Bounded d256 := by
  constructor
  · decide
  · intro i hi
    have hu : d256.units.getD i 0 = 0 := by
      unfold d256
      rw [List.getD_eq_getElem?_getD, List.getElem?_replicate]
      split <;> rfl
    have hlen : d256.units.length = 256 := by decide
    rw [hlen] at hi ⊢
    rw [hu]
    have hoff : units.offset 0 = 0 := by decide
    rw [hoff]
    constructor
    · rw [Nat.xor_zero, and_mask_eq_mod, Nat.mod_eq_of_lt (by omega)]
      exact hi
    · intro b hb
      rw [Nat.xor_zero, and_mask_eq_mod, Nat.mod_eq_of_lt]
      · have : (256 : Nat) = 2 ^ 8 := by norm_num
        rw [this] at hi hb ⊢
        exact Nat.xor_lt_two_pow hi hb
      · have h8 : i ^^^ b < 2 ^ 8 := by
          have : (256 : Nat) = 2 ^ 8 := by norm_num
          rw [this] at hi hb
          exact Nat.xor_lt_two_pow hi hb
        omega

/-- Closed instance of `C6_amended` at `d256` and the key [97]. -/
theorem C6_amended_witness :
    (∃ bv, Dictionary.contains d256 [97] = .ok bv) ∧
    (∃ v, Dictionary.find d256 [97] = .ok v) :=
  C6_amended d256 bounded_d256 [97] (by decide)

/-- A value the trie actually stores is a 31-bit unsigned integer. -/
lemma value_lt {d : Dictionary} {i v : Nat} (h : d.value i = .ok v) :
    v < 2 ^ 31 := by
  unfold Dictionary.value at h
  cases hu : d.getU i with
  | error e => rw [hu] at h; simp [bind, Except.bind] at h
  | ok u =>
    rw [hu] at h
    simp only [bind, Except.bind] at h
    cases hw : d.getU ((i ^^^ units.offset u) &&& units.PRECISION_MASK) with
    | error e => rw [hw] at h; simp at h
    | ok w =>
      rw [hw] at h
      simp [pure, Except.pure] at h
      rw [← h]
      unfold units.value
      have := Nat.and_le_right (n := w) (m := 0x7FFFFFFF)
      omega

/-- C7: `IntDAWG.get` returns the stored 31-bit value when the key is
present (even a stored 0, which is never conflated with absence, since the
internal sentinel `-1` is not a representable stored value), and the
caller's default when the key is absent; under the stated non-faulting
walk it never raises. -/
theorem C7_intdawg_get (d : Dictionary) (key : List Nat) (default : Option Int) :
    (d.contains key = .ok false → IntDAWG.get d key default = .ok default) ∧
    (∀ i v, d.follow_bytes key Dictionary.ROOT = .ok (some i) →
        d.has_value i = .ok true → d.value i = .ok v →
        IntDAWG.get d key default = .ok (some (Int.ofNat v)) ∧
        v < 2 ^ 31 ∧ (Int.ofNat v ≠ LOOKUP_ERROR)) := by
  constructor
  · intro habs
    unfold Dictionary.contains at habs
    unfold IntDAWG.get Dictionary.find
    simp only [bind, Except.bind] at habs ⊢
    revert habs
    generalize hf : d.follow_bytes key Dictionary.ROOT = fr
    intro habs
    cases fr with
    | error e => simp at habs
    | ok r =>
      cases r with
      | none => simp [pure, Except.pure, LOOKUP_ERROR]
      | some i =>
        have habs2 : d.has_value i = Except.ok false := habs
        simp [habs2, pure, Except.pure, LOOKUP_ERROR]
  · intro i v hf hv hval
    have hlt := value_lt hval
    have hne : Int.ofNat v ≠ LOOKUP_ERROR := by
      unfold LOOKUP_ERROR
      have hcast : Int.ofNat v = (v : Int) := rfl
      rw [hcast]
      omega
    refine ⟨?_, hlt, hne⟩
    unfold IntDAWG.get Dictionary.find
    simp only [bind, Except.bind]
    simp [hf, hv, hval, pure, Except.pure, hne]
    intro hcon
    exact absurd hcon hne

/-- Closed instance of `C7_intdawg_get` on `colorDict`: the stored value 7
for "color" is returned as-is, and the absent key [99] yields the default
42 (so a lookup miss surfaces as the default, never as a fault). -/
theorem C7_intdawg_get_witness :
    IntDAWG.get colorDict colorBytes none = .ok (some (Int.ofNat 7)) ∧
    IntDAWG.get colorDict [99] (some 42) = .ok (some 42) :=
  ⟨((C7_intdawg_get colorDict colorBytes none).2 5 7 (by decide) (by decide)
      (by decide)).1,
   (C7_intdawg_get colorDict [99] (some 42)).1 (by decide)⟩

/-- C8 fails as stated: `colorDict` stores "color" and the compiled table
for the mapping o -> 0 is `rcO0`, yet `similar_keys` on the query "col0r"
returns the empty list — it does not include "color".  (The replacement
table maps a query character to the characters tried in the trie, so with
this table the query must contain "o", not "0", for a substitution to
fire; the query's "0" finds no transition and the walk breaks.) -/
theorem C8_counterexample :
    Dictionary.contains colorDict colorBytes = .ok true ∧
    compile_replaces [(['o'], ReplVal.list [['0']])] = .ok rcO0 ∧
    similar_keys colorDict 50 "col0r".data rcO0 = .ok [] := by
  refine ⟨by decide, by decide, by decide⟩

/-- C8 amended: with the direction of the table reversed — the compiled
mapping 0 -> o — a dictionary containing "color" (here `colorDict`) gives
`similar_keys("col0r")` containing "color", and `similar_keys("color")`
still contains "color" itself via the unmodified path. -/
theorem C8_amended :
    Dictionary.contains colorDict colorBytes = .ok true ∧
    compile_replaces [(['0'], ReplVal.list [['o']])] = .ok rc0O ∧
    similar_keys colorDict 50 "col0r".data rc0O = .ok ["color".data] ∧
    similar_keys colorDict 50 "color".data rc0O = .ok ["color".data] := by
  refine ⟨by decide, by decide, by decide, by decide⟩

/-- The validation predicate `compile_replaces` actually enforces: every
key is exactly one character, every string value is exactly one character,
and every list value is non-empty with single-character entries. -/
def goodReplaces (rs : List (List Char × ReplVal)) : Bool :=
  rs.all (fun p => p.1.length == 1 &&
    (match p.2 with
     | ReplVal.str s => s.length == 1
     | ReplVal.list l => l.all (fun e => e.length == 1) && decide (1 ≤ l.length)))

/-- The validation loop accepts exactly the `goodReplaces` mappings. -/
lemma replacesError_none_iff (rs : List (List Char × ReplVal)) :
    replacesError rs = none ↔ goodReplaces rs = true := by
  induction rs with
  | nil => simp [replacesError, goodReplaces]
  | cons p rest ih =>
    obtain ⟨k, v⟩ := p
    simp only [goodReplaces, List.all_cons, Bool.and_eq_true, beq_iff_eq] at ih ⊢
    cases v with
    | str sv =>
      simp only [replacesError]
      split
      · next hk => simp only [reduceCtorEq, false_iff]; intro hcon; exact hk hcon.1.1
      · next hk =>
        split
        · next hs =>
          simp only [reduceCtorEq, false_iff]
          intro hcon
          have := hcon.1.2
          simp at this
          exact hs this
        · next hs =>
          rw [ih]
          have hk2 : k.length = 1 := by omega
          have hs2 : sv.length = 1 := by omega
          constructor
          · intro h
            exact ⟨⟨by simp [hk2], by simp [hs2]⟩, h⟩
          · intro h
            exact h.2
    | list l =>
      simp only [replacesError]
      split
      · next hk => simp only [reduceCtorEq, false_iff]; intro hcon; exact hk hcon.1.1
      · next hk =>
        split
        · next hl =>
          simp only [reduceCtorEq, false_iff]
          intro hcon
          obtain ⟨⟨_, hgood⟩, _⟩ := hcon
          simp only [Bool.and_eq_true, List.all_eq_true, beq_iff_eq, decide_eq_true_eq] at hgood
          simp only [Bool.or_eq_true, List.any_eq_true, decide_eq_true_eq] at hl
          rcases hl with ⟨e, he, hne⟩ | hshort
          · exact hne (hgood.1 e he)
          · omega
        · next hl =>
          rw [ih]
          have hk2 : k.length = 1 := by omega
          simp only [Bool.or_eq_true, List.any_eq_true, decide_eq_true_eq, not_or] at hl
          push_neg at hl
          constructor
          · intro h
            refine ⟨⟨by simp [hk2], ?_⟩, h⟩
            simp only [Bool.and_eq_true, List.all_eq_true, beq_iff_eq, decide_eq_true_eq]
            exact ⟨fun e he => hl.1 e he, by omega⟩
          · intro h
            exact h.2

/-- C9 fails as stated: the mapping a -> [] (an empty replacement list) has
no key and no value entry longer than one character, yet
`compile_replaces` raises the `ValueError` at table-compilation time. -/
theorem C9_counterexample :
    compile_replaces [(['a'], ReplVal.list [])] =
      .error "Values must be single-char unicode strings or non-empty lists of such." ∧
    (['a'] : List Char).length ≤ 1 ∧
    ∀ e ∈ ([] : List (List Char)), e.length ≤ 1 := by
  refine ⟨by decide, by decide, by decide⟩

/-- C9 amended: `compile_replaces` raises at table-compilation time (before
any query) exactly when some key or string value is not exactly one
character, or some list value is empty or has an entry that is not exactly
one character; otherwise it returns the compiled table. -/
theorem C9_amended (rs : List (List Char × ReplVal)) :
    ((∃ msg, compile_replaces rs = .error msg) ↔ ¬ goodReplaces rs = true) ∧
    (goodReplaces rs = true →
      compile_replaces rs =
        .ok (rs.map (fun p => (encodeUtf8 p.1, compileEntries p.2)))) := by
  constructor
  · unfold compile_replaces
    cases he : replacesError rs with
    | none =>
      have hg := (replacesError_none_iff rs).mp he
      simp [hg]
    | some msg =>
      have hg : ¬ goodReplaces rs = true := by
        intro hcon
        have := (replacesError_none_iff rs).mpr hcon
        rw [he] at this
        cases this
      simp [hg]
  · intro hg
    unfold compile_replaces
    rw [(replacesError_none_iff rs).mpr hg]

/-- Closed instance of `C9_amended`: the single-character mapping 0 -> [o]
compiles without error. -/
theorem C9_amended_witness :
    compile_replaces [(['0'], ReplVal.list [['o']])] =
      .ok ([(['0'], ReplVal.list [['o']])].map
        (fun p => (encodeUtf8 p.1, compileEntries p.2))) :=
  (C9_amended [(['0'], ReplVal.list [['o']])]).2 (by decide)

/-- The key-buffer pop of the backtracking loop is `take (length - 1)`. -/
lemma popKeyByte (key : List Nat) :
    (if key.length > 0 then key.dropLast else key) = key.take (key.length - 1) := by
  cases key with
  | nil => rfl
  | cons a l =>
    rw [if_pos (by simp)]
    rw [List.dropLast_eq_take]

/-- Iterated key-buffer pops compose. -/
lemma take_sub_take (key : List Nat) (m : Nat) :
    (key.take (key.length - 1)).take ((key.take (key.length - 1)).length - m) =
      key.take (key.length - (m + 1)) := by
  rw [List.length_take, List.take_take]
  congr 1
  omega

/-- One iteration of the backtracking loop over a popped node whose
sibling label is zero: pop it and the last key byte, and continue. -/
lemma backtrack_cons_zero (d : Dictionary) (g : Guide) (x y : Nat)
    (ys key : List Nat) (hx : g.sibling x = .ok 0) :
    Completer.backtrack d g (x :: y :: ys) key =
      Completer.backtrack d g (y :: ys) (key.take (key.length - 1)) := by
  rw [Completer.backtrack.eq_def]
  simp only [bind, Except.bind, hx]
  rw [popKeyByte, if_neg (show ¬(0 : Nat) ≠ 0 by omega)]

/-- First iteration of the backtracking loop when the popped node has a
non-zero sibling label and the stack below is non-empty: follow that label
from the new top. -/
lemma backtrack_cons_found (d : Dictionary) (g : Guide) (t sl newtop : Nat)
    (rest2 key : List Nat) (hs : g.sibling t = .ok sl) (hne : sl ≠ 0) :
    Completer.backtrack d g (t :: newtop :: rest2) key =
      (do
        match ← Completer._follow d sl newtop (newtop :: rest2)
            (key.take (key.length - 1)) with
        | none => pure (none, newtop :: rest2, key.take (key.length - 1))
        | some (next_index, stack3, key3) => pure (some next_index, stack3, key3)) := by
  rw [Completer.backtrack.eq_def]
  simp only [bind, Except.bind, hs]
  rw [popKeyByte, if_pos hne]

/-- Last iteration of the backtracking loop: popping the only remaining
node empties the stack, and the loop reports failure before consulting the
sibling label it read from that node. -/
lemma backtrack_single (d : Dictionary) (g : Guide) (t sl : Nat)
    (key : List Nat) (hs : g.sibling t = .ok sl) :
    Completer.backtrack d g [t] key =
      .ok (none, [], key.take (key.length - 1)) := by
  rw [Completer.backtrack.eq_def]
  simp only [bind, Except.bind, hs]
  rw [popKeyByte]
  rfl

/-- Backtracking with a run of zero-sibling nodes on top: each loop
iteration reads the sibling label of the node it pops; the first popped
node with a non-zero sibling label (here `t`) has that label followed from
the new top of stack. -/
lemma backtrack_found (d : Dictionary) (g : Guide) :
    ∀ (dropped key : List Nat), (∀ x ∈ dropped, g.sibling x = .ok 0) →
    ∀ t sl newtop rest2, g.sibling t = .ok sl → sl ≠ 0 →
      Completer.backtrack d g (dropped ++ t :: newtop :: rest2) key =
        (do
          match ← Completer._follow d sl newtop (newtop :: rest2)
              (key.take (key.length - (dropped.length + 1))) with
          | none => pure (none, newtop :: rest2,
              key.take (key.length - (dropped.length + 1)))
          | some (next_index, stack3, key3) => pure (some next_index, stack3, key3)) := by
  intro dropped
  induction dropped with
  | nil =>
    intro key _ t sl newtop rest2 hs hne
    rw [List.nil_append, backtrack_cons_found d g t sl newtop rest2 key hs hne]
    simp only [List.length_nil, Nat.zero_add]
  | cons x dropped2 ih =>
    intro key hd t sl newtop rest2 hs hne
    have hx : g.sibling x = .ok 0 := hd x (List.mem_cons_self x dropped2)
    have hd2 : ∀ y ∈ dropped2, g.sibling y = .ok 0 :=
      fun y hy => hd y (List.mem_cons_of_mem x hy)
    have hrec := ih (key.take (key.length - 1)) hd2 t sl newtop rest2 hs hne
    have hcons : ∃ y ys, dropped2 ++ t :: newtop :: rest2 = y :: ys := by
      cases dropped2 with
      | nil => exact ⟨t, newtop :: rest2, rfl⟩
      | cons y ys => exact ⟨y, ys ++ t :: newtop :: rest2, rfl⟩
    obtain ⟨y, ys, hys⟩ := hcons
    rw [List.cons_append, hys, backtrack_cons_zero d g x y ys key hx, ← hys, hrec,
      take_sub_take]
    simp only [List.length_cons]

/-- Backtracking over a stack whose every popped node (bar possibly the
last) has sibling label zero empties the stack and returns the failure
outcome, even when the bottom node's sibling label is non-zero: the loop
pops the bottom node and tests emptiness before consulting the label it
just read. -/
lemma backtrack_exhausted (d : Dictionary) (g : Guide) :
    ∀ (dropped key : List Nat), (∀ x ∈ dropped, g.sibling x = .ok 0) →
    ∀ t sl, g.sibling t = .ok sl →
      Completer.backtrack d g (dropped ++ [t]) key =
        .ok (none, [], key.take (key.length - (dropped.length + 1))) := by
  intro dropped
  induction dropped with
  | nil =>
    intro key _ t sl hs
    rw [List.nil_append, backtrack_single d g t sl key hs]
    simp only [List.length_nil, Nat.zero_add]
  | cons x dropped2 ih =>
    intro key hd t sl hs
    have hx : g.sibling x = .ok 0 := hd x (List.mem_cons_self x dropped2)
    have hd2 : ∀ y ∈ dropped2, g.sibling y = .ok 0 :=
      fun y hy => hd y (List.mem_cons_of_mem x hy)
    have hrec := ih (key.take (key.length - 1)) hd2 t sl hs
    have hcons : ∃ y ys, dropped2 ++ [t] = y :: ys := by
      cases dropped2 with
      | nil => exact ⟨t, [], rfl⟩
      | cons y ys => exact ⟨y, ys ++ [t], rfl⟩
    obtain ⟨y, ys, hys⟩ := hcons
    rw [List.cons_append, hys, backtrack_cons_zero d g x y ys key hx, ← hys, hrec,
      take_sub_take]
    simp only [List.length_cons]

/-- C3 fails as stated: on `dictAB`/`guideAB` (keys "a" and "ab") the third
`next` call backtracks from the exhausted node 3: the code reads the
sibling label of each node it pops (all zero here for nodes 3 and 1), pops
the root and finds the stack empty, and returns false — even though the
*new* top of stack reached after popping node 1 is the root, whose sibling
slot holds 97 ≠ 0, and following 97 from the root reaches habited node 1:
under the claim's procedure (check the new top's sibling after each pop)
the enumeration would follow that transition and return true. -/
theorem C3_counterexample :
    Completer.next dictAB guideAB 8 (Completer.start guideAB 0 []) =
      .ok (true, ⟨[97], [1, 0], 1⟩) ∧
    Completer.next dictAB guideAB 8 ⟨[97], [1, 0], 1⟩ =
      .ok (true, ⟨[97, 98], [3, 1, 0], 3⟩) ∧
    Guide.child guideAB 3 = .ok 0 ∧
    Guide.sibling guideAB 3 = .ok 0 ∧
    Guide.sibling guideAB 1 = .ok 0 ∧
    Guide.sibling guideAB 0 = .ok 97 ∧
    Dictionary.follow_char dictAB 97 0 = .ok (some 1) ∧
    Dictionary.has_value dictAB 1 = .ok true ∧
    Completer.next dictAB guideAB 8 ⟨[97, 98], [3, 1, 0], 3⟩ =
      .ok (false, ⟨[], [], 3⟩) := by
  refine ⟨by decide, by decide, by decide, by decide, by decide, by decide,
    by decide, by decide, by decide⟩

/-- C3 amended: when `next` finds the top node's child label zero it runs
the backtracking loop; the loop reads the sibling label of each node it
pops (not of the new top), pops the stack and the last key byte together;
at the first popped node with non-zero sibling label it follows that label
from the new top of stack and proceeds to the terminal descent; if the
stack empties first — including when the last popped node itself had a
non-zero sibling label — `next` returns false. -/
theorem C3_backtracking (d : Dictionary) (g : Guide) (key : List Nat)
    (dropped : List Nat) (hd : ∀ x ∈ dropped, g.sibling x = .ok 0) :
    (∀ t sl newtop rest2, g.sibling t = .ok sl → sl ≠ 0 →
        Completer.backtrack d g (dropped ++ t :: newtop :: rest2) key =
          (do
            match ← Completer._follow d sl newtop (newtop :: rest2)
                (key.take (key.length - (dropped.length + 1))) with
            | none => pure (none, newtop :: rest2,
                key.take (key.length - (dropped.length + 1)))
            | some (next_index, stack3, key3) =>
                pure (some next_index, stack3, key3))) ∧
    (∀ t sl, g.sibling t = .ok sl →
        Completer.backtrack d g (dropped ++ [t]) key =
          .ok (none, [], key.take (key.length - (dropped.length + 1)))) ∧
    (∀ fuel c top stail, c.index_stack = top :: stail →
        c.last_index ≠ Dictionary.ROOT → g.child top = .ok 0 →
        Completer.next d g fuel c =
          (do
            let bt ← Completer.backtrack d g c.index_stack c.key
            let step ←
              match bt with
              | (none, stack2, key2) => pure ((none : Option Nat), stack2, key2)
              | (some index2, stack2, key2) =>
                  Completer.find_terminal d g fuel index2 stack2 key2
            match step with
            | (none, stack3, key3) =>
                pure (false, (⟨key3, stack3, c.last_index⟩ : Completer))
            | (some last, stack3, key3) =>
                pure (true, (⟨key3, stack3, last⟩ : Completer)))) := by
  refine ⟨fun t sl newtop rest2 hs hne =>
      backtrack_found d g dropped key hd t sl newtop rest2 hs hne,
    fun t sl hs => backtrack_exhausted d g dropped key hd t sl hs, ?_⟩
  intro fuel c top stail hstack hlast hchild
  unfold Completer.next
  rw [hstack]
  simp only [bind, Except.bind, if_pos hlast, hchild]
  rw [if_neg (show ¬(0 : Nat) ≠ 0 by omega)]

/-- Closed instance of `C3_backtracking` on `dictAB`/`guideAB2`: popping
exhausted node 3 (sibling 0) and then node 1 (sibling 97) makes the loop
follow byte 97 from the new top (the root), while over the stack [3, 1]
the stack empties and `backtrack` reports failure; `next` on the full
state descends to the "a" node again and returns true. -/
theorem C3_backtracking_witness :
    Completer.backtrack dictAB guideAB2 [3, 1, 0] [97, 98] =
      .ok (some 1, [1, 0], [97]) ∧
    Completer.backtrack dictAB guideAB2 [3, 1] [97, 98] = .ok (none, [], []) ∧
    Completer.next dictAB guideAB2 8 ⟨[97, 98], [3, 1, 0], 3⟩ =
      .ok (true, ⟨[97], [1, 0], 1⟩) := by
  have h := C3_backtracking dictAB guideAB2 [97, 98] [3] (by decide)
  refine ⟨?_, ?_, ?_⟩
  · have h1 := h.1 1 97 0 [] (by decide) (by decide)
    rw [show ([3] ++ 1 :: 0 :: [] : List Nat) = [3, 1, 0] from rfl] at h1
    rw [h1]
    decide
  · have h2 := h.2.1 1 97 (by decide)
    rw [show ([3] ++ [1] : List Nat) = [3, 1] from rfl] at h2
    rw [h2]
    decide
  · have h3 := h.2.2 8 ⟨[97, 98], [3, 1, 0], 3⟩ 3 [1, 0] rfl (by decide) (by decide)
    rw [h3]
    decide

/-- `Chain d i bs js last`: following the bytes `bs` from node `i` takes the
successive transitions to the nodes `js` and ends at `last`. -/
def Chain (d : Dictionary) : Nat → List Nat → List Nat → Nat → Prop
  | i, [], [], last => i = last
  | i, b :: bs, j :: js, last => d.follow_char b i = .ok (some j) ∧ Chain d j bs js last
  | _, _, _, _ => False

/-- A chain pairs one byte with one node. -/
lemma chain_length (d : Dictionary) :
    ∀ bs js (start top : Nat), Chain d start bs js top → bs.length = js.length := by
  intro bs
  induction bs with
  | nil =>
    intro js start top hc
    cases js with
    | nil => rfl
    | cons j js0 => exact absurd hc (by simp [Chain])
  | cons b bs0 ih =>
    intro js start top hc
    cases js with
    | nil => exact absurd hc (by simp [Chain])
    | cons j js0 =>
      obtain ⟨_, hrest⟩ := hc
      simp only [List.length_cons]
      rw [ih js0 j top hrest]

/-- A chain ends at the last visited node. -/
lemma chain_last (d : Dictionary) :
    ∀ bs js (start top : Nat), Chain d start bs js top →
      (start :: js).getLast (by simp) = top := by
  intro bs
  induction bs with
  | nil =>
    intro js start top hc
    cases js with
    | nil => exact hc
    | cons j js0 => exact absurd hc (by simp [Chain])
  | cons b bs0 ih =>
    intro js start top hc
    cases js with
    | nil => exact absurd hc (by simp [Chain])
    | cons j js0 =>
      obtain ⟨_, hrest⟩ := hc
      have := ih js0 j top hrest
      rw [← this]
      rw [List.getLast_cons (by simp)]

/-- Extending a chain by one followed transition. -/
lemma chain_append_one (d : Dictionary) :
    ∀ bs js (start top b j : Nat), Chain d start bs js top →
      d.follow_char b top = .ok (some j) →
      Chain d start (bs ++ [b]) (js ++ [j]) j := by
  intro bs
  induction bs with
  | nil =>
    intro js start top b j hc hf
    cases js with
    | nil =>
      have hst : start = top := hc
      subst hst
      exact ⟨hf, rfl⟩
    | cons _ _ => exact absurd hc (by simp [Chain])
  | cons b0 bs0 ih =>
    intro js start top b j hc hf
    cases js with
    | nil => exact absurd hc (by simp [Chain])
    | cons j0 js0 =>
      obtain ⟨hstep, hrest⟩ := hc
      exact ⟨hstep, ih js0 j0 top b j hrest hf⟩

/-- Splitting the last transition off a chain. -/
lemma chain_snoc_inv (d : Dictionary) :
    ∀ bs js (start top b j : Nat), Chain d start (bs ++ [b]) (js ++ [j]) top →
      top = j ∧ ∃ mid, Chain d start bs js mid ∧ d.follow_char b mid = .ok (some j) := by
  intro bs
  induction bs with
  | nil =>
    intro js start top b j hc
    cases js with
    | nil =>
      obtain ⟨hf, hend⟩ := hc
      have hj : j = top := hend
      subst hj
      exact ⟨rfl, start, rfl, hf⟩
    | cons j0 js0 =>
      exfalso
      obtain ⟨_, hrest⟩ := hc
      cases js0 with
      | nil => exact hrest
      | cons _ _ => exact hrest
  | cons b0 bs0 ih =>
    intro js start top b j hc
    cases js with
    | nil =>
      exfalso
      obtain ⟨_, hrest⟩ := hc
      cases bs0 with
      | nil => exact hrest
      | cons _ _ => exact hrest
    | cons j0 js0 =>
      obtain ⟨hstep, hrest⟩ := hc
      obtain ⟨htop, mid, hmid, hf⟩ := ih js0 j0 top b j hrest
      exact ⟨htop, mid, ⟨hstep, hmid⟩, hf⟩

/-- A successful terminal descent preserves the stack/key/chain invariant:
it only pushes indices obtained from checked transitions, appends exactly
the followed labels, and stops on a `has_value` node that it leaves on the
top of the stack. -/
lemma find_terminal_inv (d : Dictionary) (g : Guide) :
    ∀ fuel index stack key r stack2 key2,
      Completer.find_terminal d g fuel index stack key = .ok (r, stack2, key2) →
      ∀ start pfx bs js, stack = (start :: js).reverse → key = pfx ++ bs →
        Chain d start bs js index →
        ∀ last, r = some last →
          ∃ bs2 js2, stack2 = (start :: js2).reverse ∧ key2 = pfx ++ bs2 ∧
            Chain d start bs2 js2 last ∧ stack2.head? = some last ∧
            d.has_value last = .ok true := by
  intro fuel
  induction fuel with
  | zero =>
    intro index stack key r stack2 key2 h
    simp [Completer.find_terminal] at h
  | succ fuel ih =>
    intro index stack key r stack2 key2 h start pfx bs js hstack hkey hchain last hr
    subst hr
    simp only [Completer.find_terminal, bind, Except.bind] at h
    cases hv : d.has_value index with
    | error e => rw [hv] at h; simp at h
    | ok b =>
      rw [hv] at h
      cases b with
      | true =>
        simp [pure, Except.pure] at h
        obtain ⟨h1, h2, h3⟩ := h
        have h1' : index = last := h1
        subst h1'
        refine ⟨bs, js, by rw [← h2, hstack], by rw [← h3, hkey], hchain, ?_, hv⟩
        rw [← h2, hstack, List.head?_reverse]
        rw [List.getLast?_eq_getLast (start :: js) (by simp)]
        rw [chain_last d bs js start index hchain]
      | false =>
        simp only [Bool.false_eq_true, if_false] at h
        cases hc : g.child index with
        | error e => rw [hc] at h; simp at h
        | ok cl =>
          rw [hc] at h
          simp only [Completer._follow, bind, Except.bind] at h
          cases hfc : d.follow_char cl index with
          | error e => rw [hfc] at h; simp at h
          | ok o =>
            rw [hfc] at h
            cases o with
            | none => simp [pure, Except.pure] at h
            | some ni =>
              have hstack2 : ni :: stack = (start :: (js ++ [ni])).reverse := by
                rw [hstack]
                rw [show start :: (js ++ [ni]) = (start :: js) ++ [ni] by simp]
                rw [List.reverse_append]
                rfl
              have hkey2 : key ++ [cl] = pfx ++ (bs ++ [cl]) := by
                rw [hkey, List.append_assoc]
              have hchain2 := chain_append_one d bs js start index cl ni hchain hfc
              exact ih ni (ni :: stack) (key ++ [cl]) (some last) stack2 key2 h
                start pfx (bs ++ [cl]) (js ++ [ni]) hstack2 hkey2 hchain2 last rfl

/-- A backtracking step that breaks out to a new index preserves the
stack/key/chain invariant: pops remove matched (byte, node) pairs and the
sibling follow pushes a checked transition from the new top. -/
lemma backtrack_inv (d : Dictionary) (g : Guide) :
    ∀ (js bs : List Nat) (start : Nat) (pfx : List Nat) (top : Nat)
      (r : Option Nat) (stack2 key2 : List Nat),
      Chain d start bs js top →
      Completer.backtrack d g ((start :: js).reverse) (pfx ++ bs) =
        .ok (r, stack2, key2) →
      ∀ i2, r = some i2 →
        ∃ bs2 js2, stack2 = (start :: js2).reverse ∧ key2 = pfx ++ bs2 ∧
          Chain d start bs2 js2 i2 := by
  intro js
  induction js using List.reverseRecOn with
  | nil =>
    intro bs start pfx top r stack2 key2 hchain h i2 hr
    subst hr
    have hbs : bs = [] := by
      have hl := chain_length d bs [] start top hchain
      simpa using hl
    subst hbs
    simp only [List.reverse_cons, List.reverse_nil, List.nil_append] at h
    cases hs : g.sibling start with
    | error e =>
      rw [Completer.backtrack.eq_def] at h
      simp [hs, bind, Except.bind] at h
    | ok sl =>
      rw [backtrack_single d g start sl (pfx ++ []) hs] at h
      simp at h
  | append_singleton js0 jtop ihjs =>
    intro bs start pfx top r stack2 key2 hchain h i2 hr
    subst hr
    rcases List.eq_nil_or_concat bs with hbs | ⟨bs0, b, hbs⟩
    · exfalso
      subst hbs
      have hl := chain_length d [] (js0 ++ [jtop]) start top hchain
      simp at hl
    · rw [List.concat_eq_append] at hbs
      subst hbs
      obtain ⟨htopj, mid, hmid, hfol⟩ :=
        chain_snoc_inv d bs0 js0 start top b jtop hchain
      subst htopj
      have hrev : (start :: (js0 ++ [top])).reverse =
          top :: (start :: js0).reverse := by
        rw [show start :: (js0 ++ [top]) = (start :: js0) ++ [top] by simp,
          List.reverse_append]
        rfl
      rw [hrev] at h
      obtain ⟨y, ys, hys⟩ : ∃ y ys, (start :: js0).reverse = y :: ys := by
        cases hrev2 : (start :: js0).reverse with
        | nil =>
          exfalso
          have := congrArg List.length hrev2
          simp at this
        | cons y ys => exact ⟨y, ys, rfl⟩
      have hy : y = mid := by
        have h1 : (start :: js0).reverse.head? = some y := by rw [hys]; rfl
        rw [List.head?_reverse] at h1
        rw [List.getLast?_eq_getLast (start :: js0) (by simp)] at h1
        rw [chain_last d bs0 js0 start mid hmid] at h1
        exact (Option.some_inj.mp h1).symm
      subst hy
      have hkeypop : (pfx ++ (bs0 ++ [b])).take ((pfx ++ (bs0 ++ [b])).length - 1) =
          pfx ++ bs0 := by
        rw [show pfx ++ (bs0 ++ [b]) = (pfx ++ bs0) ++ [b] by rw [List.append_assoc]]
        have hlen : ((pfx ++ bs0) ++ [b]).length - 1 = (pfx ++ bs0).length := by simp
        rw [hlen, List.take_left]
      cases hs : g.sibling top with
      | error e =>
        rw [hys] at h
        rw [Completer.backtrack.eq_def] at h
        simp [hs, bind, Except.bind] at h
      | ok sl =>
        by_cases hsl : sl = 0
        · subst hsl
          rw [hys] at h
          rw [backtrack_cons_zero d g top y ys (pfx ++ (bs0 ++ [b])) hs] at h
          rw [hkeypop, ← hys] at h
          exact ihjs bs0 start pfx y (some i2) stack2 key2 hmid h i2 rfl
        · rw [hys] at h
          rw [backtrack_cons_found d g top sl y ys (pfx ++ (bs0 ++ [b])) hs hsl] at h
          rw [hkeypop] at h
          simp only [Completer._follow, bind, Except.bind] at h
          cases hfc : d.follow_char sl y with
          | error e => rw [hfc] at h; simp at h
          | ok o =>
            rw [hfc] at h
            cases o with
            | none => simp [pure, Except.pure] at h
            | some ni =>
              simp [pure, Except.pure] at h
              obtain ⟨h1, h2, h3⟩ := h
              have h1' : ni = i2 := h1
              subst h1'
              refine ⟨bs0 ++ [sl], js0 ++ [ni], ?_, ?_, ?_⟩
              · rw [← h2]
                rw [show start :: (js0 ++ [ni]) = (start :: js0) ++ [ni] by simp,
                  List.reverse_append, hys]
                rfl
              · rw [← h3]
              · exact chain_append_one d bs0 js0 start y sl ni hmid hfc

/-- The state invariant of a running completer: the stack is the reversed
path `start, j1, ..., jk`, the key buffer is the prefix plus the labels of
the transitions along that path, and the chain of `follow_char` steps
through the successive stack entries ends at the top of the stack. -/
def CompleterInv (d : Dictionary) (start : Nat) (pfx : List Nat) (c : Completer) : Prop :=
  ∃ bs js top rest, c.index_stack = top :: rest ∧
    top :: rest = (start :: js).reverse ∧
    c.key = pfx ++ bs ∧ Chain d start bs js top

/-- `next` on the first call runs the terminal descent from the top of the
stack. -/
lemma next_first (d : Dictionary) (g : Guide) (fuel : Nat) (c : Completer)
    (top : Nat) (stail : List Nat) (hstack : c.index_stack = top :: stail)
    (hlast : c.last_index = Dictionary.ROOT) :
    Completer.next d g fuel c =
      (do
        let step ← Completer.find_terminal d g fuel top c.index_stack c.key
        match step with
        | (none, stack3, key3) =>
            pure (false, (⟨key3, stack3, c.last_index⟩ : Completer))
        | (some last, stack3, key3) =>
            pure (true, (⟨key3, stack3, last⟩ : Completer))) := by
  unfold Completer.next
  rw [hstack]
  simp only [bind, Except.bind, hlast]
  rw [if_neg (by simp)]

/-- `next` with a non-zero child label at the top follows it and runs the
terminal descent. -/
lemma next_descend (d : Dictionary) (g : Guide) (fuel : Nat) (c : Completer)
    (top : Nat) (stail : List Nat) (cl : Nat)
    (hstack : c.index_stack = top :: stail)
    (hlast : c.last_index ≠ Dictionary.ROOT)
    (hchild : g.child top = .ok cl) (hcl : cl ≠ 0) :
    Completer.next d g fuel c =
      (do
        let fo ← Completer._follow d cl top c.index_stack c.key
        let step ←
          match fo with
          | none => pure ((none : Option Nat), c.index_stack, c.key)
          | some (ni, stack2, key2) => Completer.find_terminal d g fuel ni stack2 key2
        match step with
        | (none, stack3, key3) =>
            pure (false, (⟨key3, stack3, c.last_index⟩ : Completer))
        | (some last, stack3, key3) =>
            pure (true, (⟨key3, stack3, last⟩ : Completer))) := by
  unfold Completer.next
  rw [hstack]
  simp only [bind, Except.bind, if_pos hlast, hchild]
  rw [if_pos hcl]

/-- `next` with child label zero at the top runs the backtracking loop (as
also recorded in the dedicated backtracking theorem). -/
lemma next_backtrack_eq (d : Dictionary) (g : Guide) (fuel : Nat) (c : Completer)
    (top : Nat) (stail : List Nat)
    (hstack : c.index_stack = top :: stail)
    (hlast : c.last_index ≠ Dictionary.ROOT)
    (hchild : g.child top = .ok 0) :
    Completer.next d g fuel c =
      (do
        let bt ← Completer.backtrack d g c.index_stack c.key
        let step ←
          match bt with
          | (none, stack2, key2) => pure ((none : Option Nat), stack2, key2)
          | (some index2, stack2, key2) =>
              Completer.find_terminal d g fuel index2 stack2 key2
        match step with
        | (none, stack3, key3) =>
            pure (false, (⟨key3, stack3, c.last_index⟩ : Completer))
        | (some last, stack3, key3) =>
            pure (true, (⟨key3, stack3, last⟩ : Completer))) := by
  unfold Completer.next
  rw [hstack]
  simp only [bind, Except.bind, if_pos hlast, hchild]
  rw [if_neg (show ¬(0 : Nat) ≠ 0 by omega)]

/-- `next` propagates a fault from the guide read of the top's child. -/
lemma next_child_error (d : Dictionary) (g : Guide) (fuel : Nat) (c : Completer)
    (top : Nat) (stail : List Nat) (e : String)
    (hstack : c.index_stack = top :: stail)
    (hlast : c.last_index ≠ Dictionary.ROOT)
    (hchild : g.child top = .error e) :
    Completer.next d g fuel c = .error e := by
  unfold Completer.next
  rw [hstack]
  simp only [bind, Except.bind, if_pos hlast, hchild]

/-- C10 fails as stated for the "after start" part: starting a completer
(non-empty guide) at index 1 — a legitimate start index, resolved by
following byte 97 from the root — leaves `_last_index` at the root, so the
top of the stack (1) differs from the index recorded for value retrieval
(0), and the recorded index's node does not have `has_value`. -/
theorem C10_counterexample :
    Dictionary.follow_bytes dictAB [97] Dictionary.ROOT = .ok (some 1) ∧
    guideAB.size ≠ 0 ∧
    Completer.start guideAB 1 [97] = ⟨[97], [1], 0⟩ ∧
    (Completer.start guideAB 1 [97]).index_stack.head? = some 1 ∧
    (Completer.start guideAB 1 [97]).last_index = 0 ∧
    (1 : Nat) ≠ 0 ∧
    Dictionary.has_value dictAB 0 = .ok false := by
  refine ⟨by decide, by decide, by decide, by decide, by decide, by decide, by decide⟩

/-- C10 amended: after `start` on a non-empty guide the stack holds exactly
the start index, the key buffer the prefix, and the transition-chain
invariant holds (but the last-index clause need not); any state satisfying
the invariant has a non-empty stack with the start index at the bottom and
key length = prefix length + stack size - 1; and every successful `next`
preserves the invariant and additionally leaves the recorded value index
equal to the top of the stack, at a node with `has_value` true. -/
theorem C10_completer_invariant (d : Dictionary) (g : Guide) (start : Nat)
    (pfx : List Nat) :
    (g.size ≠ 0 → CompleterInv d start pfx (Completer.start g start pfx)) ∧
    (∀ c, CompleterInv d start pfx c →
        c.index_stack ≠ [] ∧ c.index_stack.getLast? = some start ∧
        c.key.length + 1 = pfx.length + c.index_stack.length) ∧
    (∀ fuel c c2, CompleterInv d start pfx c →
        Completer.next d g fuel c = .ok (true, c2) →
        CompleterInv d start pfx c2 ∧
        c2.index_stack.head? = some c2.last_index ∧
        d.has_value c2.last_index = .ok true) := by
  refine ⟨?_, ?_, ?_⟩
  · intro hg
    unfold Completer.start
    rw [if_pos hg]
    exact ⟨[], [], start, [], rfl, rfl, by simp, rfl⟩
  · intro c hinv
    obtain ⟨bs, js, top, rest, hstack, hrev, hkey, hchain⟩ := hinv
    refine ⟨by rw [hstack]; simp, ?_, ?_⟩
    · rw [hstack, hrev, List.getLast?_reverse]
      rfl
    · have hlen := chain_length d bs js start top hchain
      have h1 : c.key.length = pfx.length + bs.length := by rw [hkey]; simp
      have h2 : c.index_stack.length = js.length + 1 := by
        rw [hstack, hrev]
        simp
      omega
  · intro fuel c c2 hinv hnext
    obtain ⟨bs, js, top, rest, hstack, hrev, hkey, hchain⟩ := hinv
    have hstackrev : c.index_stack = (start :: js).reverse := hstack.trans hrev
    by_cases hlast : c.last_index = Dictionary.ROOT
    · rw [next_first d g fuel c top rest hstack hlast] at hnext
      simp only [bind, Except.bind] at hnext
      cases hft : Completer.find_terminal d g fuel top c.index_stack c.key with
      | error e => rw [hft] at hnext; simp at hnext
      | ok p =>
        rw [hft] at hnext
        obtain ⟨opt, stack3, key3⟩ := p
        cases opt with
        | none => simp [pure, Except.pure] at hnext
        | some lastv =>
          simp [pure, Except.pure] at hnext
          obtain ⟨bs2, js2, hst2, hk2, hch2, hhd2, hhv2⟩ :=
            find_terminal_inv d g fuel top c.index_stack c.key (some lastv)
              stack3 key3 hft start pfx bs js hstackrev hkey hchain lastv rfl
          obtain ⟨top2, rest2, htr⟩ : ∃ top2 rest2, stack3 = top2 :: rest2 := by
            cases stack3 with
            | nil => simp at hhd2
            | cons a b => exact ⟨a, b, rfl⟩
          refine ⟨⟨bs2, js2, top2, rest2, ?_, ?_, ?_, ?_⟩, ?_, ?_⟩
          · rw [← hnext]; exact htr
          · rw [← htr]; exact hst2
          · rw [← hnext]; exact hk2
          · have : top2 = lastv := by
              rw [htr] at hhd2
              exact Option.some_inj.mp hhd2.symm |>.symm
            rw [this]
            exact hch2
          · rw [← hnext, htr]
            rw [htr] at hhd2
            have : top2 = lastv := Option.some_inj.mp hhd2
            rw [this]
            rfl
          · rw [← hnext]
            exact hhv2
    · cases hc : g.child top with
      | error e =>
        rw [next_child_error d g fuel c top rest e hstack hlast hc] at hnext
        simp at hnext
      | ok cl =>
        by_cases hcl : cl = 0
        · subst hcl
          rw [next_backtrack_eq d g fuel c top rest hstack hlast hc] at hnext
          simp only [bind, Except.bind] at hnext
          cases hbt : Completer.backtrack d g c.index_stack c.key with
          | error e => rw [hbt] at hnext; simp at hnext
          | ok bt =>
            rw [hbt] at hnext
            obtain ⟨optb, stackb, keyb⟩ := bt
            cases optb with
            | none =>
              simp only [pure, Except.pure] at hnext
              cases hft : Completer.find_terminal d g fuel 0 stackb keyb
              all_goals simp [pure, Except.pure] at hnext
            | some i2 =>
              rw [hstackrev, hkey] at hbt
              obtain ⟨bsb, jsb, hstb, hkb, hchb⟩ :=
                backtrack_inv d g js bs start pfx top (some i2) stackb keyb
                  hchain hbt i2 rfl
              simp only [bind, Except.bind] at hnext
              cases hft : Completer.find_terminal d g fuel i2 stackb keyb with
              | error e => rw [hft] at hnext; simp at hnext
              | ok p =>
                rw [hft] at hnext
                obtain ⟨opt, stack3, key3⟩ := p
                cases opt with
                | none => simp [pure, Except.pure] at hnext
                | some lastv =>
                  simp [pure, Except.pure] at hnext
                  obtain ⟨bs2, js2, hst2, hk2, hch2, hhd2, hhv2⟩ :=
                    find_terminal_inv d g fuel i2 stackb keyb (some lastv)
                      stack3 key3 hft start pfx bsb jsb hstb hkb hchb lastv rfl
                  obtain ⟨top2, rest2, htr⟩ : ∃ top2 rest2, stack3 = top2 :: rest2 := by
                    cases stack3 with
                    | nil => simp at hhd2
                    | cons a b => exact ⟨a, b, rfl⟩
                  refine ⟨⟨bs2, js2, top2, rest2, ?_, ?_, ?_, ?_⟩, ?_, ?_⟩
                  · rw [← hnext]; exact htr
                  · rw [← htr]; exact hst2
                  · rw [← hnext]; exact hk2
                  · have : top2 = lastv := by
                      rw [htr] at hhd2
                      exact Option.some_inj.mp hhd2
                    rw [this]
                    exact hch2
                  · rw [← hnext, htr]
                    rw [htr] at hhd2
                    have : top2 = lastv := Option.some_inj.mp hhd2
                    rw [this]
                    rfl
                  · rw [← hnext]
                    exact hhv2
        · rw [next_descend d g fuel c top rest cl hstack hlast hc hcl] at hnext
          simp only [Completer._follow, bind, Except.bind] at hnext
          cases hfc : d.follow_char cl top with
          | error e => rw [hfc] at hnext; simp at hnext
          | ok o =>
            rw [hfc] at hnext
            cases o with
            | none =>
              simp only [pure, Except.pure] at hnext
              simp [pure, Except.pure] at hnext
            | some ni =>
              simp only [pure, Except.pure] at hnext
              have hstack2 : ni :: c.index_stack = (start :: (js ++ [ni])).reverse := by
                rw [hstackrev]
                rw [show start :: (js ++ [ni]) = (start :: js) ++ [ni] by simp,
                  List.reverse_append]
                rfl
              have hkey2 : c.key ++ [cl] = pfx ++ (bs ++ [cl]) := by
                rw [hkey, List.append_assoc]
              have hchain2 := chain_append_one d bs js start top cl ni hchain hfc
              cases hft : Completer.find_terminal d g fuel ni (ni :: c.index_stack)
                  (c.key ++ [cl]) with
              | error e => rw [hft] at hnext; simp at hnext
              | ok p =>
                rw [hft] at hnext
                obtain ⟨opt, stack3, key3⟩ := p
                cases opt with
                | none => simp [pure, Except.pure] at hnext
                | some lastv =>
                  simp [pure, Except.pure] at hnext
                  obtain ⟨bs2, js2, hst2, hk2, hch2, hhd2, hhv2⟩ :=
                    find_terminal_inv d g fuel ni (ni :: c.index_stack)
                      (c.key ++ [cl]) (some lastv) stack3 key3 hft start pfx
                      (bs ++ [cl]) (js ++ [ni]) hstack2 hkey2 hchain2 lastv rfl
                  obtain ⟨top2, rest2, htr⟩ : ∃ top2 rest2, stack3 = top2 :: rest2 := by
                    cases stack3 with
                    | nil => simp at hhd2
                    | cons a b => exact ⟨a, b, rfl⟩
                  refine ⟨⟨bs2, js2, top2, rest2, ?_, ?_, ?_, ?_⟩, ?_, ?_⟩
                  · rw [← hnext]; exact htr
                  · rw [← htr]; exact hst2
                  · rw [← hnext]; exact hk2
                  · have : top2 = lastv := by
                      rw [htr] at hhd2
                      exact Option.some_inj.mp hhd2
                    rw [this]
                    exact hch2
                  · rw [← hnext, htr]
                    rw [htr] at hhd2
                    have : top2 = lastv := Option.some_inj.mp hhd2
                    rw [this]
                    rfl
                  · rw [← hnext]
                    exact hhv2

/-- Closed instance of `C10_completer_invariant` on `dictAB`/`guideAB`:
the started completer at the root satisfies the invariant, the readout
facts hold, and the first successful `next` (which yields "a") preserves
it with the recorded index on top of the stack at a `has_value` node. -/
theorem C10_completer_invariant_witness :
    CompleterInv dictAB 0 [] (Completer.start guideAB 0 []) ∧
    (Completer.start guideAB 0 []).index_stack ≠ [] ∧
    (Completer.start guideAB 0 []).index_stack.getLast? = some 0 ∧
    (CompleterInv dictAB 0 [] (⟨[97], [1, 0], 1⟩ : Completer) ∧
      (⟨[97], [1, 0], 1⟩ : Completer).index_stack.head? =
        some (⟨[97], [1, 0], 1⟩ : Completer).last_index ∧
      Dictionary.has_value dictAB (⟨[97], [1, 0], 1⟩ : Completer).last_index =
        .ok true) := by
  have h := C10_completer_invariant dictAB guideAB 0 []
  have h1 := h.1 (by decide)
  have h2 := h.2.1 (Completer.start guideAB 0 []) h1
  exact ⟨h1, h2.1, h2.2.1,
    h.2.2 8 (Completer.start guideAB 0 []) ⟨[97], [1, 0], 1⟩ h1 (by decide)⟩

/-- Walking a concatenation walks the first part, then the second. -/
lemma follow_bytes_append (d : Dictionary) :
    ∀ (xs ys : List Nat) (i : Nat),
      d.follow_bytes (xs ++ ys) i =
        (do
          match ← d.follow_bytes xs i with
          | none => pure none
          | some k => d.follow_bytes ys k) := by
  intro xs
  induction xs with
  | nil =>
    intro ys i
    simp only [List.nil_append, Dictionary.follow_bytes, bind, Except.bind, pure,
      Except.pure]
  | cons x xs0 ih =>
    intro ys i
    simp only [List.cons_append, Dictionary.follow_bytes, bind, Except.bind]
    cases hfc : d.follow_char x i with
    | error e => rfl
    | ok o =>
      cases o with
      | none => rfl
      | some k => exact ih ys k

/-- `contains` of a one-byte extension, given the walk so far. -/
lemma contains_step (d : Dictionary) (done : List Nat) (ch index : Nat)
    (hdone : d.follow_bytes done Dictionary.ROOT = .ok (some index)) :
    d.contains (done ++ [ch]) =
      (do
        match ← d.follow_char ch index with
        | none => pure false
        | some k => d.has_value k) := by
  unfold Dictionary.contains
  rw [follow_bytes_append d done [ch] Dictionary.ROOT]
  simp only [bind, Except.bind, hdone]
  cases hfc : d.follow_char ch index with
  | error e => simp [Dictionary.follow_bytes, bind, Except.bind, hfc]
  | ok o =>
    cases o with
    | none => simp [Dictionary.follow_bytes, bind, Except.bind, hfc, pure, Except.pure]
    | some k => simp [Dictionary.follow_bytes, bind, Except.bind, hfc, pure, Except.pure]

/-- The `prefixes` walk, characterized: provided no transition of the walk
lands on index 0 (which the source's falsy test would silently treat as a
break), the loop returns exactly the non-empty prefixes of the key whose
node `has_value`, in increasing length order. -/
lemma prefixesLoop_spec (d : Dictionary) (key : List Nat) :
    ∀ (rest done : List Nat) (index : Nat) (L : List (List Nat)),
      key = done ++ rest →
      d.follow_bytes done Dictionary.ROOT = .ok (some index) →
      prefixesLoop d key rest index (done.length + 1) = .ok L →
      (∀ m, m < rest.length →
        d.follow_bytes (key.take (done.length + m + 1)) Dictionary.ROOT ≠
          .ok (some 0)) →
      L = ((List.range rest.length).map
            (fun m => key.take (done.length + m + 1))).filter
          (fun p => decide (d.contains p = .ok true)) := by
  intro rest
  induction rest with
  | nil =>
    intro done index L hkey hdone hok hnz
    simp [prefixesLoop] at hok
    subst hok
    simp
  | cons ch rest0 ih =>
    intro done index L hkey hdone hok hnz
    simp only [prefixesLoop, bind, Except.bind] at hok
    have htake0 : key.take (done.length + 1) = done ++ [ch] := by
      rw [hkey, show done.length + 1 = done.length + 1 from rfl, List.take_append 1]
      rfl
    cases hfc : d.follow_char ch index with
    | error e => rw [hfc] at hok; simp at hok
    | ok o =>
      rw [hfc] at hok
      cases o with
      | none =>
        simp [pure, Except.pure] at hok
        subst hok
        symm
        rw [List.filter_eq_nil_iff]
        intro p hp
        simp only [List.mem_map, List.mem_range] at hp
        obtain ⟨m, hm, hpm⟩ := hp
        have hptake : key.take (done.length + m + 1) =
            done ++ ch :: rest0.take m := by
          rw [hkey, show done.length + m + 1 = done.length + (m + 1) by omega,
            List.take_append]
          simp
        have hcont : d.contains (done ++ ch :: rest0.take m) = .ok false := by
          unfold Dictionary.contains
          rw [show done ++ ch :: rest0.take m = (done ++ [ch]) ++ rest0.take m by simp]
          rw [follow_bytes_append d (done ++ [ch]) (rest0.take m) Dictionary.ROOT]
          rw [follow_bytes_append d done [ch] Dictionary.ROOT]
          simp [bind, Except.bind, hdone, Dictionary.follow_bytes, hfc, pure,
            Except.pure]
        rw [← hpm, hptake]
        simp [hcont]
      | some index2 =>
        cases index2 with
        | zero =>
          exfalso
          apply hnz 0 (by simp)
          rw [show done.length + 0 + 1 = done.length + 1 by omega, htake0]
          rw [follow_bytes_append d done [ch] Dictionary.ROOT]
          simp [bind, Except.bind, hdone, Dictionary.follow_bytes, hfc, pure,
            Except.pure]
        | succ n =>
          simp only [bind, Except.bind] at hok
          cases hhv : d.has_value (n + 1) with
          | error e => rw [hhv] at hok; simp at hok
          | ok hv =>
            rw [hhv] at hok
            simp only [bind, Except.bind] at hok
            cases hrec : prefixesLoop d key rest0 (n + 1) (done.length + 1 + 1) with
            | error e => rw [hrec] at hok; simp at hok
            | ok tail =>
              rw [hrec] at hok
              simp [pure, Except.pure] at hok
              have hdone2 : d.follow_bytes (done ++ [ch]) Dictionary.ROOT =
                  .ok (some (n + 1)) := by
                rw [follow_bytes_append d done [ch] Dictionary.ROOT]
                simp [bind, Except.bind, hdone, Dictionary.follow_bytes, hfc,
                  pure, Except.pure]
              have hkey2 : key = (done ++ [ch]) ++ rest0 := by rw [hkey]; simp
              have hposrw : done.length + 1 + 1 = (done ++ [ch]).length + 1 := by simp
              rw [hposrw] at hrec
              have hnz2 : ∀ m, m < rest0.length →
                  d.follow_bytes (key.take ((done ++ [ch]).length + m + 1))
                    Dictionary.ROOT ≠ .ok (some 0) := by
                intro m hm
                have h0 := hnz (m + 1) (by simp only [List.length_cons]; omega)
                rw [show (done ++ [ch]).length + m + 1 =
                  done.length + (m + 1) + 1 by
                    simp only [List.length_append, List.length_cons,
                      List.length_nil]
                    omega]
                exact h0
              have htail := ih (done ++ [ch]) (n + 1) tail hkey2 hdone2 hrec hnz2
              have hcont1 : d.contains (done ++ [ch]) = .ok hv := by
                rw [contains_step d done ch index hdone]
                simp only [bind, Except.bind, hfc]
                exact hhv
              rw [← hok]
              simp only [List.length_cons]
              rw [List.range_succ_eq_map]
              simp only [List.map_cons, List.map_map]
              rw [List.filter_cons]
              have hmapeq : (List.range rest0.length).map
                    ((fun m => key.take (done.length + m + 1)) ∘ Nat.succ) =
                  (List.range rest0.length).map
                    (fun m => key.take ((done ++ [ch]).length + m + 1)) := by
                apply List.map_congr_left
                intro m _
                simp only [Function.comp_apply]
                congr 1
                simp
                omega
              rw [hmapeq, ← htail]
              cases hv with
              | true => simp [htake0, hcont1]
              | false => simp [htake0, hcont1]

/-- C4 fails as stated: this dictionary (loadable; root unit has the
`HAS_LEAF` bit) stores the empty key — `contains("")` is true and the empty
string is a prefix of every key — yet `prefixes` never returns it: the walk
starts appending only after consuming at least one byte. -/
theorem C4_counterexample :
    Dictionary.contains (⟨[256, 0, 0, 0, 0, 0]⟩ : Dictionary) [] = .ok true ∧
    ([] : List Nat) <+: [5] ∧
    prefixes (⟨[256, 0, 0, 0, 0, 0]⟩ : Dictionary) [5] = .ok [] := by
  refine ⟨by decide, ⟨[5], rfl⟩, by decide⟩

/-- C4 amended: when `prefixes` returns without fault and no step of the
walk lands on candidate index 0 (the source's falsy break), the result is
exactly the list of non-empty prefixes of the key that are stored keys
(`contains` true), in increasing length order. -/
theorem C4_prefixes (d : Dictionary) (key : List Nat) (L : List (List Nat))
    (hok : prefixes d key = .ok L)
    (hnz : ∀ m, m < key.length →
      d.follow_bytes (key.take (m + 1)) Dictionary.ROOT ≠ .ok (some 0)) :
    L = ((List.range key.length).map (fun m => key.take (m + 1))).filter
      (fun p => decide (d.contains p = .ok true)) := by
  unfold prefixes at hok
  have hconc := prefixesLoop_spec d key key [] Dictionary.ROOT L (by simp) rfl hok
    (by intro m hm; simpa using hnz m hm)
  rw [hconc]
  congr 1
  apply List.map_congr_left
  intro m _
  congr 1
  simp

/-- Closed instance of `C4_prefixes` on `colorDict`: the only stored prefix
of "color" is "color" itself. -/
theorem C4_prefixes_witness :
    ([colorBytes] : List (List Nat)) =
      ((List.range colorBytes.length).map (fun m => colorBytes.take (m + 1))).filter
        (fun p => decide (colorDict.contains p = .ok true)) :=
  C4_prefixes colorDict colorBytes [colorBytes] (by decide) (by decide)

/-- Whether some transition with the byte `b` leaves node `i` (the
`follow_char` probe succeeds with a node). -/
def hasTrans (d : Dictionary) (b i : Nat) : Bool :=
  match d.follow_char b i with
  | .ok (some _) => true
  | _ => false

/-- Positive `hasTrans` is exactly a successful `follow_char` probe. -/
lemma hasTrans_iff (d : Dictionary) (b i : Nat) :
    hasTrans d b i = true ↔ ∃ j, d.follow_char b i = .ok (some j) := by
  unfold hasTrans
  cases h : d.follow_char b i with
  | error e => simp [h]
  | ok o => cases o with
    | none => simp [h]
    | some j => simp [h]

/-- The byte string `s` read from node `i` reaches a stored key: the walk
succeeds and ends on a `has_value` node. -/
def Terminal (d : Dictionary) (i : Nat) (s : List Nat) : Prop :=
  ∃ j, d.follow_bytes s i = .ok (some j) ∧ d.has_value j = .ok true

mutual
/-- An exact guide-driven enumeration certificate for the subtrie at node
`i`: `ks` is the depth-first list of stored suffixes below `i` in the order
the Guide dictates.  The node contributes the empty suffix when it has a
value, then its child chain; the chain labels listed by the guide must be
duplicate-free and cover exactly the bytes below 256 with a transition
(`hasTrans`), child nodes are never the root, and a node with neither a
value nor a first child cannot occur inside the certificate of a parent
(the `hv = true ∨ cl ≠ 0` side condition). -/
inductive EnumNodeX (d : Dictionary) (g : Guide) : Nat → List (List Nat) → Prop
  | mk : ∀ i hv cl ks ls,
      d.has_value i = .ok hv → g.child i = .ok cl →
      EnumChainX d g i cl ks ls →
      (∀ b, b < 256 → (b ∈ ls ↔ hasTrans d b i = true)) →
      (hv = true ∨ cl ≠ 0) →
      EnumNodeX d g i ((if hv then [[]] else []) ++ ks)
/-- The sibling-chain half of the certificate: starting at the pending
label `b` of a child of `i` (0 meaning the chain is exhausted), `ks` lists
the suffixes contributed by the remaining children in order and `ls` the
labels of those children.  Each step records the checked transition, the
child's own certificate, and the sibling label the Guide stores for the
child. -/
inductive EnumChainX (d : Dictionary) (g : Guide) : Nat → Nat → List (List Nat) → List Nat → Prop
  | zero : ∀ i, EnumChainX d g i 0 [] []
  | step : ∀ i b j ks1 sb ks2 ls2,
      b ≠ 0 → b < 256 → j ≠ 0 → d.follow_char b i = .ok (some j) →
      EnumNodeX d g j ks1 →
      g.sibling j = .ok sb →
      EnumChainX d g i sb ks2 ls2 →
      b ∉ ls2 →
      EnumChainX d g i b (ks1.map (fun s => b :: s) ++ ks2) (b :: ls2)
end

/-- Runs of `Completer.next`: from state `c`, successive successful calls
produce exactly the key buffers in `l` and leave the completer in state
`c2`. -/
def YieldsFrom (d : Dictionary) (g : Guide) (fuel : Nat) :
    Completer → List (List Nat) → Completer → Prop
  | c, [], c2 => c = c2
  | c, k :: krest, c2 => ∃ c1, Completer.next d g fuel c = .ok (true, c1) ∧
      c1.key = k ∧ YieldsFrom d g fuel c1 krest c2

/-- Shape of the completer state after the last key of the subtrie at `i`
was produced: the descent path `pL` above `i` pairs one node per key byte,
every node on it has sibling label 0 (it closes its chain), the recorded
index `lL` is the top of the stack, is not the root, and has child label 0
(the last key ends on a leaf of the guide's spanning tree). -/
def ExitOK (g : Guide) (i : Nat) (S kL pL : List Nat) (lL : Nat) : Prop :=
  pL.length = kL.length ∧ (∀ x ∈ pL, g.sibling x = .ok 0) ∧
  (pL ++ i :: S).head? = some lL ∧ lL ≠ Dictionary.ROOT ∧ g.child lL = .ok 0

/-- Induction motive for nodes: in any context (buffer `K`, stack below
`S`), the terminal descent entered at `i` produces the first suffix of the
certificate, successive `next` calls produce the remaining ones, and the
machine is left in the documented exit shape. -/
def RunNodeP (d : Dictionary) (g : Guide) (i : Nat) (ks : List (List Nat)) : Prop :=
  ∀ K S : List Nat, (i = Dictionary.ROOT → d.has_value i ≠ .ok true) →
    ∃ fuel k0 krest kL l0 p0 pL lL,
      ks = k0 :: krest ∧ ks.getLast? = some kL ∧
      p0.length = k0.length ∧ (p0 ++ i :: S).head? = some l0 ∧
      Completer.find_terminal d g fuel i (i :: S) K =
        .ok (some l0, p0 ++ i :: S, K ++ k0) ∧
      YieldsFrom d g fuel ⟨K ++ k0, p0 ++ i :: S, l0⟩
        (krest.map (fun s => K ++ s)) ⟨K ++ kL, pL ++ i :: S, lL⟩ ∧
      ExitOK g i S kL pL lL

/-- Induction motive for chains: a pending non-zero label `b` at a child of
`i` is followed, the terminal descent from the followed node produces the
first suffix of the chain's certificate, and the run continues through all
siblings, ending in the documented exit shape relative to `i`. -/
def RunChainP (d : Dictionary) (g : Guide) (i b : Nat) (ks : List (List Nat)) : Prop :=
  b ≠ 0 → ∀ K S : List Nat,
    ∃ fuel j k0 krest kL l0 p0 pL lL,
      d.follow_char b i = .ok (some j) ∧
      ks = k0 :: krest ∧ ks.getLast? = some kL ∧
      p0.length = k0.length ∧ (p0 ++ i :: S).head? = some l0 ∧
      Completer.find_terminal d g fuel j (j :: i :: S) (K ++ [b]) =
        .ok (some l0, p0 ++ i :: S, K ++ k0) ∧
      YieldsFrom d g fuel ⟨K ++ k0, p0 ++ i :: S, l0⟩
        (krest.map (fun s => K ++ s)) ⟨K ++ kL, pL ++ i :: S, lL⟩ ∧
      ExitOK g i S kL pL lL

/-- Content motive for nodes: the certificate's suffix list consists of
byte strings, has no duplicates, and holds exactly the byte strings that
reach a stored key from `i`. -/
def ContentN (d : Dictionary) (i : Nat) (ks : List (List Nat)) : Prop :=
  (∀ s ∈ ks, ∀ x ∈ s, x < 256) ∧ ks.Nodup ∧
  (∀ s, (∀ x ∈ s, x < 256) → (s ∈ ks ↔ Terminal d i s))

/-- Content motive for chains: every listed suffix starts with one of the
chain's labels, and the list holds exactly the byte strings routed through
a listed label whose remainder reaches a stored key in the corresponding
child. -/
def ContentC (d : Dictionary) (i : Nat) (ks : List (List Nat)) (ls : List Nat) : Prop :=
  (∀ s ∈ ks, ∀ x ∈ s, x < 256) ∧ ks.Nodup ∧
  (∀ s ∈ ks, ∃ b2 s2, s = b2 :: s2 ∧ b2 ∈ ls) ∧
  (∀ s, (∀ x ∈ s, x < 256) →
    (s ∈ ks ↔ ∃ b2 s2 j, s = b2 :: s2 ∧ b2 ∈ ls ∧
      d.follow_char b2 i = .ok (some j) ∧ Terminal d j s2))

/-- One step of `follow_bytes` on a cons cell. -/
lemma follow_bytes_cons_eq (d : Dictionary) (b : Nat) (s : List Nat) (i : Nat) :
    d.follow_bytes (b :: s) i =
      (do
        match ← d.follow_char b i with
        | none => pure none
        | some j => d.follow_bytes s j) := by
  simp only [Dictionary.follow_bytes]

/-- Terminal descent at a `has_value` node stops immediately. -/
lemma find_terminal_succ_value (d : Dictionary) (g : Guide) (fuel i : Nat)
    (st k : List Nat) (hv : d.has_value i = .ok true) :
    Completer.find_terminal d g (fuel + 1) i st k = .ok (some i, st, k) := by
  simp only [Completer.find_terminal, bind, Except.bind, hv]
  rfl

/-- Terminal descent at a valueless node follows the guide's child label
and recurses on the followed node. -/
lemma find_terminal_succ_descend (d : Dictionary) (g : Guide) (fuel i cl j : Nat)
    (st k : List Nat) (hv : d.has_value i = .ok false)
    (hch : g.child i = .ok cl) (hf : d.follow_char cl i = .ok (some j)) :
    Completer.find_terminal d g (fuel + 1) i st k =
      Completer.find_terminal d g fuel j (j :: st) (k ++ [cl]) := by
  simp only [Completer.find_terminal, bind, Except.bind, hv, hch,
    Completer._follow, hf, Bool.false_eq_true, if_false, pure, Except.pure]

/-- More fuel preserves a successful terminal descent. -/
lemma find_terminal_mono (d : Dictionary) (g : Guide) :
    ∀ f1 : Nat, ∀ {f2 i st k r}, f1 ≤ f2 →
      Completer.find_terminal d g f1 i st k = .ok r →
      Completer.find_terminal d g f2 i st k = .ok r := by
  intro f1
  induction f1 with
  | zero =>
    intro f2 i st k r _ h
    exact absurd h (by simp [Completer.find_terminal])
  | succ f1 ih =>
    intro f2 i st k r hle h
    obtain ⟨f2', rfl⟩ : ∃ f2', f2 = f2' + 1 := ⟨f2 - 1, by omega⟩
    cases hv : d.has_value i with
    | error e => simp [Completer.find_terminal, bind, Except.bind, hv] at h
    | ok hvb =>
      cases hvb with
      | true =>
        simp only [Completer.find_terminal, bind, Except.bind, hv, if_true] at h ⊢
        exact h
      | false =>
        cases hc : g.child i with
        | error e =>
          simp [Completer.find_terminal, bind, Except.bind, hv, hc] at h
        | ok cl =>
          cases hfc : d.follow_char cl i with
          | error e =>
            simp [Completer.find_terminal, Completer._follow, bind, Except.bind,
              hv, hc, hfc] at h
          | ok o =>
            cases o with
            | none =>
              simp only [Completer.find_terminal, Completer._follow, bind,
                Except.bind, hv, hc, hfc, Bool.false_eq_true, if_false] at h ⊢
              exact h
            | some ni =>
              simp only [Completer.find_terminal, Completer._follow, bind,
                Except.bind, hv, hc, hfc, Bool.false_eq_true, if_false, pure,
                Except.pure] at h ⊢
              exact ih (by omega) h

/-- More fuel preserves a successful `next` call. -/
lemma except_bind_ok {α β : Type} {x : Except String α} {f : α → Except String β}
    {r : β} : (x >>= f) = .ok r ↔ ∃ a, x = .ok a ∧ f a = .ok r := by
  cases x with
  | error e => simp [bind, Except.bind]
  | ok a => simp [bind, Except.bind]

/-- The shared continuation of `Completer.next`: package the result of the
step phase into the returned flag and state. -/
def nextStep (d : Dictionary) (c : Completer) :
    Option Nat × List Nat × List Nat → Except String (Bool × Completer)
  | (none, stack3, key3) => pure (false, ⟨key3, stack3, c.last_index⟩)
  | (some last, stack3, key3) => pure (true, ⟨key3, stack3, last⟩)

lemma nextStep_some (d : Dictionary) (c : Completer) (last : Nat)
    (stack key : List Nat) :
    nextStep d c (some last, stack, key) = .ok (true, ⟨key, stack, last⟩) := rfl

lemma nextStep_none (d : Dictionary) (c : Completer) (stack key : List Nat) :
    nextStep d c (none, stack, key) = .ok (false, ⟨key, stack, c.last_index⟩) := rfl

/-- Bind form of `next` on the first call. -/
lemma next_first_bind (d : Dictionary) (g : Guide) (fuel : Nat) (c : Completer)
    (top : Nat) (stail : List Nat) (hstack : c.index_stack = top :: stail)
    (hlast : c.last_index = Dictionary.ROOT) :
    Completer.next d g fuel c =
      Completer.find_terminal d g fuel top c.index_stack c.key >>= nextStep d c := by
  rw [next_first d g fuel c top stail hstack hlast]
  rfl

/-- Bind form of `next` in the descend branch. -/
lemma next_descend_bind (d : Dictionary) (g : Guide) (fuel : Nat) (c : Completer)
    (top : Nat) (stail : List Nat) (cl : Nat)
    (hstack : c.index_stack = top :: stail)
    (hlast : c.last_index ≠ Dictionary.ROOT)
    (hchild : g.child top = .ok cl) (hcl : cl ≠ 0) :
    Completer.next d g fuel c =
      Completer._follow d cl top c.index_stack c.key >>= (fun fo =>
        match fo with
        | none => pure ((none : Option Nat), c.index_stack, c.key) >>= nextStep d c
        | some (ni, stack2, key2) =>
            Completer.find_terminal d g fuel ni stack2 key2 >>= nextStep d c) := by
  rw [next_descend d g fuel c top stail cl hstack hlast hchild hcl]
  rfl

/-- Bind form of `next` in the backtracking branch. -/
lemma next_backtrack_bind (d : Dictionary) (g : Guide) (fuel : Nat) (c : Completer)
    (top : Nat) (stail : List Nat)
    (hstack : c.index_stack = top :: stail)
    (hlast : c.last_index ≠ Dictionary.ROOT)
    (hchild : g.child top = .ok 0) :
    Completer.next d g fuel c =
      Completer.backtrack d g c.index_stack c.key >>= (fun bt =>
        match bt with
        | (none, stack2, key2) =>
            pure ((none : Option Nat), stack2, key2) >>= nextStep d c
        | (some index2, stack2, key2) =>
            Completer.find_terminal d g fuel index2 stack2 key2 >>= nextStep d c) := by
  rw [next_backtrack_eq d g fuel c top stail hstack hlast hchild]
  rfl

/-- More fuel preserves a successful `next` call. -/
lemma next_mono (d : Dictionary) (g : Guide) {f1 f2 : Nat} {c : Completer}
    {r : Bool × Completer} (hle : f1 ≤ f2)
    (h : Completer.next d g f1 c = .ok r) : Completer.next d g f2 c = .ok r := by
  cases hst : c.index_stack with
  | nil =>
    unfold Completer.next at h ⊢
    rw [hst] at h ⊢
    exact h
  | cons top stail =>
    by_cases hlast : c.last_index = Dictionary.ROOT
    · rw [next_first_bind d g f1 c top stail hst hlast] at h
      rw [next_first_bind d g f2 c top stail hst hlast]
      rw [except_bind_ok] at h ⊢
      obtain ⟨stp, hft, hm⟩ := h
      exact ⟨stp, find_terminal_mono d g f1 hle hft, hm⟩
    · cases hcE : g.child top with
      | error e =>
        rw [next_child_error d g f1 c top stail e hst hlast hcE] at h
        exact absurd h (by simp)
      | ok cl =>
        by_cases hcl : cl = 0
        · subst hcl
          rw [next_backtrack_bind d g f1 c top stail hst hlast hcE] at h
          rw [next_backtrack_bind d g f2 c top stail hst hlast hcE]
          rw [except_bind_ok] at h ⊢
          obtain ⟨bt, hbt, h2⟩ := h
          refine ⟨bt, hbt, ?_⟩
          obtain ⟨ro, stack2, key2⟩ := bt
          cases ro with
          | none => exact h2
          | some i2 =>
            have h3 : Completer.find_terminal d g f1 i2 stack2 key2 >>=
                nextStep d c = Except.ok r := h2
            rw [except_bind_ok] at h3
            obtain ⟨stp, hft, hm⟩ := h3
            show Completer.find_terminal d g f2 i2 stack2 key2 >>=
              nextStep d c = Except.ok r
            rw [except_bind_ok]
            exact ⟨stp, find_terminal_mono d g f1 hle hft, hm⟩
        · rw [next_descend_bind d g f1 c top stail cl hst hlast hcE hcl] at h
          rw [next_descend_bind d g f2 c top stail cl hst hlast hcE hcl]
          rw [except_bind_ok] at h ⊢
          obtain ⟨fo, hfo, h2⟩ := h
          refine ⟨fo, hfo, ?_⟩
          cases fo with
          | none => exact h2
          | some tr =>
            obtain ⟨ni, stack2, key2⟩ := tr
            have h3 : Completer.find_terminal d g f1 ni stack2 key2 >>=
                nextStep d c = Except.ok r := h2
            rw [except_bind_ok] at h3
            obtain ⟨stp, hft, hm⟩ := h3
            show Completer.find_terminal d g f2 ni stack2 key2 >>=
              nextStep d c = Except.ok r
            rw [except_bind_ok]
            exact ⟨stp, find_terminal_mono d g f1 hle hft, hm⟩

/-- More fuel preserves a run of successful `next` calls. -/
lemma yields_mono (d : Dictionary) (g : Guide) {f1 f2 : Nat} (hle : f1 ≤ f2) :
    ∀ l (c c2 : Completer), YieldsFrom d g f1 c l c2 → YieldsFrom d g f2 c l c2 := by
  intro l
  induction l with
  | nil => intro c c2 h; exact h
  | cons k kr ih =>
    intro c c2 h
    obtain ⟨c1, h1, h2, h3⟩ := h
    exact ⟨c1, next_mono d g hle h1, h2, ih c1 c2 h3⟩

/-- Runs of `next` calls compose. -/
lemma yields_append (d : Dictionary) (g : Guide) (fuel : Nat) :
    ∀ l1 l2 (c c1 c2 : Completer),
      YieldsFrom d g fuel c l1 c1 → YieldsFrom d g fuel c1 l2 c2 →
      YieldsFrom d g fuel c (l1 ++ l2) c2 := by
  intro l1
  induction l1 with
  | nil =>
    intro l2 c c1 c2 h1 h2
    have h : c = c1 := h1
    rw [List.nil_append, h]
    exact h2
  | cons k kr ih =>
    intro l2 c c1 c2 h1 h2
    obtain ⟨cm, hn, hk, hrest⟩ := h1
    exact ⟨cm, hn, hk, ih l2 cm c1 c2 hrest h2⟩

/-- One step of the `iterkeys` collection loop. -/
lemma nextKeys_succ (d : Dictionary) (g : Guide) (fuel steps : Nat) (c : Completer) :
    nextKeys d g fuel (steps + 1) c =
      (do
        match ← Completer.next d g fuel c with
        | (false, _) => return []
        | (true, c2) => return (c2.key :: (← nextKeys d g fuel steps c2))) := rfl

/-- A run of `next` calls followed by a failing call is exactly the
collection loop of `iterkeys`. -/
lemma nextKeys_of_yields (d : Dictionary) (g : Guide) (fuel : Nat) :
    ∀ l (c c2 cdead : Completer),
      YieldsFrom d g fuel c l c2 →
      Completer.next d g fuel c2 = .ok (false, cdead) →
      nextKeys d g fuel (l.length + 1) c = .ok l := by
  intro l
  induction l with
  | nil =>
    intro c c2 cdead hy hn
    have h : c = c2 := hy
    subst h
    rw [List.length_nil, nextKeys_succ]
    simp only [bind, Except.bind, hn]
    rfl
  | cons k kr ih =>
    intro c c2 cdead hy hn
    obtain ⟨c1, h1, h2, h3⟩ := hy
    rw [List.length_cons, nextKeys_succ]
    simp only [bind, Except.bind, h1]
    rw [ih c1 c2 cdead h3 hn]
    simp only [pure, Except.pure, h2]

/-- The empty byte string reaches a stored key from `i` exactly when `i`
itself has a value. -/
lemma terminal_nil (d : Dictionary) (i : Nat) :
    Terminal d i [] ↔ d.has_value i = .ok true := by
  unfold Terminal
  constructor
  · rintro ⟨j, hfb, hv⟩
    have heq : (Except.ok (some i) : Except String (Option Nat)) = .ok (some j) := hfb
    simp only [Except.ok.injEq, Option.some.injEq] at heq
    rw [← heq] at hv
    exact hv
  · intro hv
    exact ⟨i, rfl, hv⟩

/-- Peeling one checked transition off a terminal walk. -/
lemma terminal_cons (d : Dictionary) (b i j : Nat) (s : List Nat)
    (hfc : d.follow_char b i = .ok (some j)) :
    Terminal d i (b :: s) ↔ Terminal d j s := by
  unfold Terminal
  rw [follow_bytes_cons_eq d b s i]
  simp only [bind, Except.bind, hfc]

/-- A terminal walk over a non-empty byte string starts with a successful
transition. -/
lemma terminal_cons_inv (d : Dictionary) (b i : Nat) (s : List Nat)
    (h : Terminal d i (b :: s)) :
    ∃ j, d.follow_char b i = .ok (some j) ∧ Terminal d j s := by
  obtain ⟨jj, hfb, hv⟩ := h
  rw [follow_bytes_cons_eq d b s i] at hfb
  cases hfc : d.follow_char b i with
  | error e => rw [hfc] at hfb; simp [bind, Except.bind] at hfb
  | ok o =>
    rw [hfc] at hfb
    cases o with
    | none => simp [bind, Except.bind, pure, Except.pure] at hfb
    | some j =>
      refine ⟨j, rfl, jj, ?_, hv⟩
      simpa [bind, Except.bind] using hfb

/-- Content of an exact enumeration certificate: the suffix lists consist
of byte strings, are duplicate-free, and hold exactly the byte strings
that reach stored keys. -/
lemma enum_content (d : Dictionary) (g : Guide) :
    ∀ i ks, EnumNodeX d g i ks → ContentN d i ks := by
  intro i ks h
  refine @EnumNodeX.rec d g (fun i ks _ => ContentN d i ks)
    (fun i b ks ls _ => ContentC d i ks ls) ?_ ?_ ?_ i ks h
  · -- mk case
    intro i hv cl ks ls hhv hch hchain hex hok ihc
    obtain ⟨hbytesC, hnodupC, hheadsC, hiffC⟩ := ihc
    cases hv with
    | false =>
      simp only [Bool.false_eq_true, if_false, List.nil_append]
      refine ⟨hbytesC, hnodupC, ?_⟩
      intro s hs
      constructor
      · intro hmem
        obtain ⟨b2, s2, j, hseq, hbin, hfc, hterm⟩ := (hiffC s hs).mp hmem
        subst hseq
        exact (terminal_cons d b2 i j s2 hfc).mpr hterm
      · intro hterm
        cases s with
        | nil =>
          rw [terminal_nil] at hterm
          rw [hhv] at hterm
          exact absurd hterm (by simp)
        | cons b2 s2 =>
          obtain ⟨j, hfc, hterm2⟩ := terminal_cons_inv d b2 i s2 hterm
          have hb2 : b2 < 256 := hs b2 (by simp)
          have hbin : b2 ∈ ls :=
            (hex b2 hb2).mpr ((hasTrans_iff d b2 i).mpr ⟨j, hfc⟩)
          exact (hiffC (b2 :: s2) hs).mpr ⟨b2, s2, j, rfl, hbin, hfc, hterm2⟩
    | true =>
      simp only [if_true, List.singleton_append]
      refine ⟨?_, ?_, ?_⟩
      · intro s hs
        rcases List.mem_cons.mp hs with hs0 | hs1
        · subst hs0; intro x hx; exact absurd hx (List.not_mem_nil x)
        · exact hbytesC s hs1
      · rw [List.nodup_cons]
        refine ⟨?_, hnodupC⟩
        intro hmem
        obtain ⟨b2, s2, heq, _⟩ := hheadsC [] hmem
        exact absurd heq (by simp)
      · intro s hs
        constructor
        · intro hmem
          rcases List.mem_cons.mp hmem with hs0 | hs1
          · subst hs0
            exact (terminal_nil d i).mpr hhv
          · obtain ⟨b2, s2, j, hseq, hbin, hfc, hterm⟩ := (hiffC s hs).mp hs1
            subst hseq
            exact (terminal_cons d b2 i j s2 hfc).mpr hterm
        · intro hterm
          cases s with
          | nil => exact List.mem_cons_self [] ks
          | cons b2 s2 =>
            obtain ⟨j, hfc, hterm2⟩ := terminal_cons_inv d b2 i s2 hterm
            have hb2 : b2 < 256 := hs b2 (by simp)
            have hbin : b2 ∈ ls :=
              (hex b2 hb2).mpr ((hasTrans_iff d b2 i).mpr ⟨j, hfc⟩)
            exact List.mem_cons_of_mem []
              ((hiffC (b2 :: s2) hs).mpr ⟨b2, s2, j, rfl, hbin, hfc, hterm2⟩)
  · -- zero case
    intro i
    refine ⟨?_, List.nodup_nil, ?_, ?_⟩
    · intro s hs; exact absurd hs (List.not_mem_nil s)
    · intro s hs; exact absurd hs (List.not_mem_nil s)
    · intro s hs
      constructor
      · intro hmem; exact absurd hmem (List.not_mem_nil s)
      · rintro ⟨b2, s2, j, _, hbin, _, _⟩
        exact absurd hbin (List.not_mem_nil b2)
  · -- step case
    intro i b j ks1 sb ks2 ls2 hb hb256 hj hfc hnode hsib hchain hnot ihn ihc
    obtain ⟨hbytes1, hnodup1, hiff1⟩ := ihn
    obtain ⟨hbytes2, hnodup2, hheads2, hiff2⟩ := ihc
    have hinj : Function.Injective (fun s : List Nat => b :: s) := by
      intro x y hxy
      injection hxy
    refine ⟨?_, ?_, ?_, ?_⟩
    · intro s hs
      rcases List.mem_append.mp hs with hsm | hs2
      · obtain ⟨s1, hs1, rfl⟩ := List.mem_map.mp hsm
        intro x hx
        rcases List.mem_cons.mp hx with hx0 | hx1
        · subst hx0; exact hb256
        · exact hbytes1 s1 hs1 x hx1
      · exact hbytes2 s hs2
    · refine List.Nodup.append (List.Nodup.map hinj hnodup1) hnodup2 ?_
      rw [List.disjoint_left]
      intro s hsm hs2
      obtain ⟨s1, hs1, rfl⟩ := List.mem_map.mp hsm
      obtain ⟨b2, s2, heq, hbin⟩ := hheads2 (b :: s1) hs2
      have hbb : b2 = b := by
        have := congrArg (fun l : List Nat => l.head?) heq
        simpa using this.symm
      subst hbb
      exact hnot hbin
    · intro s hs
      rcases List.mem_append.mp hs with hsm | hs2
      · obtain ⟨s1, hs1, rfl⟩ := List.mem_map.mp hsm
        exact ⟨b, s1, rfl, List.mem_cons_self b ls2⟩
      · obtain ⟨b2, s2, heq, hbin⟩ := hheads2 s hs2
        exact ⟨b2, s2, heq, List.mem_cons_of_mem b hbin⟩
    · intro s hs
      constructor
      · intro hmem
        rcases List.mem_append.mp hmem with hsm | hs2
        · obtain ⟨s1, hs1, rfl⟩ := List.mem_map.mp hsm
          have hb1 : ∀ x ∈ s1, x < 256 := fun x hx => hs x (List.mem_cons_of_mem b hx)
          exact ⟨b, s1, j, rfl, List.mem_cons_self b ls2, hfc, (hiff1 s1 hb1).mp hs1⟩
        · obtain ⟨b2, s2, j2, heq, hbin, hfc2, hterm⟩ := (hiff2 s hs).mp hs2
          exact ⟨b2, s2, j2, heq, List.mem_cons_of_mem b hbin, hfc2, hterm⟩
      · rintro ⟨b2, s2, j2, rfl, hbin, hfc2, hterm⟩
        rcases List.mem_cons.mp hbin with hbeq | hbin2
        · subst hbeq
          rw [hfc] at hfc2
          simp only [Except.ok.injEq, Option.some.injEq] at hfc2
          subst hfc2
          have hb1 : ∀ x ∈ s2, x < 256 :=
            fun x hx => hs x (List.mem_cons_of_mem b2 hx)
          exact List.mem_append_left ks2
            (List.mem_map.mpr ⟨s2, (hiff1 s2 hb1).mpr hterm, rfl⟩)
        · exact List.mem_append_right (ks1.map (fun s => b :: s))
            ((hiff2 (b2 :: s2) hs).mpr ⟨b2, s2, j2, rfl, hbin2, hfc2, hterm⟩)

/-- A list with a known head is a cons cell. -/
lemma head?_eq_cons {α : Type} (l : List α) (a : α) (h : l.head? = some a) :
    ∃ t, l = a :: t := by
  cases l with
  | nil => simp at h
  | cons x t =>
    simp at h
    exact ⟨t, by rw [h]⟩

/-- The completer runs an exact enumeration certificate: entered at the
certified node it produces exactly the certified suffixes, in order, and
exits in the documented backtracking shape. -/
lemma enum_run (d : Dictionary) (g : Guide) :
    ∀ i ks, EnumNodeX d g i ks → RunNodeP d g i ks := by
  intro i ks h
  refine @EnumNodeX.rec d g (fun i ks _ => RunNodeP d g i ks)
    (fun i b ks ls _ => RunChainP d g i b ks) ?_ ?_ ?_ i ks h
  · -- mk case
    intro i hv cl ks ls hhv hch hchain hex hok ihc
    cases hv with
    | false =>
      simp only [Bool.false_eq_true, if_false, List.nil_append]
      have hcl : cl ≠ 0 := by
        rcases hok with h1 | h1
        · exact absurd h1 (by simp)
        · exact h1
      intro K S hroot
      obtain ⟨fuel, j, k0, krest, kL, l0, p0, pL, lL, hfol, hks, hlast, hplen,
        hhead, hft, hyield, hexit⟩ := ihc hcl K S
      refine ⟨fuel + 1, k0, krest, kL, l0, p0, pL, lL, hks, hlast, hplen, hhead,
        ?_, yields_mono d g (Nat.le_succ fuel) _ _ _ hyield, hexit⟩
      rw [find_terminal_succ_descend d g fuel i cl j (i :: S) K hhv hch hfol]
      exact hft
    | true =>
      simp only [if_true, List.singleton_append]
      intro K S hroot
      have hne : i ≠ Dictionary.ROOT := fun hi => hroot hi hhv
      by_cases hcl : cl = 0
      · subst hcl
        cases hchain with
        | step _ b2 j2 ks1 sb ks2 ls2 hb2 hb256 hj2 hfc2 hnode2 hsib2 hchain2 hnot2 =>
          exact absurd rfl hb2
        | zero =>
          refine ⟨1, [], [], [], i, [], [], i, rfl, rfl, rfl, rfl, ?_, ?_, ?_⟩
          · simp only [List.append_nil, List.nil_append]
            exact find_terminal_succ_value d g 0 i (i :: S) K hhv
          · exact rfl
          · refine ⟨rfl, ?_, rfl, hne, hch⟩
            intro x hx
            exact absurd hx (List.not_mem_nil x)
      · obtain ⟨fuel, j, kc0, kcrest, kcL, lc0, pc0, pcL, lcL, hfol, hksc, hlastc,
          hplenc, hheadc, hftc, hyieldc, hexitc⟩ := ihc hcl K S
        refine ⟨fuel + 1, [], ks, kcL, i, [], pcL, lcL, rfl, ?_, rfl, rfl, ?_, ?_, hexitc⟩
        · rw [hksc, List.getLast?_cons_cons, ← hksc]
          exact hlastc
        · simp only [List.append_nil, List.nil_append]
          exact find_terminal_succ_value d g fuel i (i :: S) K hhv
        · simp only [List.append_nil, List.nil_append]
          rw [hksc, List.map_cons]
          refine ⟨⟨K ++ kc0, pc0 ++ i :: S, lc0⟩, ?_, rfl,
            yields_mono d g (Nat.le_succ fuel) _ _ _ hyieldc⟩
          rw [next_descend_bind d g (fuel + 1) ⟨K, i :: S, i⟩ i S cl rfl hne hch hcl]
          rw [except_bind_ok]
          refine ⟨some (j, j :: i :: S, K ++ [cl]), ?_, ?_⟩
          · show Completer._follow d cl i (i :: S) K =
              .ok (some (j, j :: i :: S, K ++ [cl]))
            simp only [Completer._follow, bind, Except.bind, hfol]
            rfl
          · show Completer.find_terminal d g (fuel + 1) j (j :: i :: S) (K ++ [cl]) >>=
              nextStep d ⟨K, i :: S, i⟩ =
              .ok (true, ⟨K ++ kc0, pc0 ++ i :: S, lc0⟩)
            rw [find_terminal_mono d g fuel (Nat.le_succ fuel) hftc]
            rfl
  · -- zero case
    intro i
    intro hb0
    exact absurd rfl hb0
  · -- step case
    intro i b j ks1 sb ks2 ls2 hb hb256 hj hfc hnode hsib hchain hnot ihn ihc
    intro _ K S
    obtain ⟨f1, k10, k1rest, k1L, l10, p10, p1L, l1L, hks1, hlast1, hplen1, hhead1,
      hft1, hyield1, hexit1⟩ := ihn (K ++ [b]) (i :: S) (fun hji => absurd hji hj)
    obtain ⟨hplL, hsibz, hheadL, hl1L, hchildL⟩ := hexit1
    have hassocK : ∀ x : List Nat, (K ++ [b]) ++ x = K ++ (b :: x) := by
      intro x; simp
    have hassocP : ∀ (p x : List Nat) (n : Nat), (p ++ [n]) ++ x = p ++ n :: x := by
      intro p x n; simp
    have hmapeq : k1rest.map (fun s => (K ++ [b]) ++ s) =
        (k1rest.map (fun s => b :: s)).map (fun s => K ++ s) := by
      rw [List.map_map]
      exact List.map_congr_left (fun s _ => by simp)
    by_cases hsb0 : sb = 0
    · subst hsb0
      cases hchain with
      | step _ b2 j2 ks1' sb' ks2' ls2' hb2 hb256' hj2 hfc2 hnode2 hsib2 hchain2 hnot2 =>
        exact absurd rfl hb2
      | zero =>
        refine ⟨f1, j, b :: k10, k1rest.map (fun s => b :: s), b :: k1L, l10,
          p10 ++ [j], p1L ++ [j], l1L, hfc, ?_, ?_, ?_, ?_, ?_, ?_, ?_⟩
        · rw [hks1, List.append_nil, List.map_cons]
        · rw [List.append_nil, List.getLast?_map, hlast1]
          rfl
        · simp [hplen1]
        · rw [hassocP p10 (i :: S) j]
          exact hhead1
        · rw [hassocP p10 (i :: S) j, ← hassocK k10]
          exact hft1
        · rw [hassocP p10 (i :: S) j, hassocP p1L (i :: S) j,
            ← hassocK k10, ← hassocK k1L, ← hmapeq]
          exact hyield1
        · refine ⟨by simp [hplL], ?_, ?_, hl1L, hchildL⟩
          · intro x hx
            rcases List.mem_append.mp hx with h1 | h2
            · exact hsibz x h1
            · rw [List.mem_singleton.mp h2]
              exact hsib
          · rw [hassocP p1L (i :: S) j]
            exact hheadL
    · obtain ⟨f2, j2, k20, k2rest, k2L, l20, p20, p2L, l2L, hfol2, hks2, hlast2,
        hplen2, hhead2, hft2, hyield2, hexit2⟩ := ihc hsb0 K S
      refine ⟨max f1 f2, j, b :: k10, k1rest.map (fun s => b :: s) ++ ks2, k2L, l10,
        p10 ++ [j], p2L, l2L, hfc, ?_, ?_, ?_, ?_, ?_, ?_, hexit2⟩
      · rw [hks1, List.map_cons, List.cons_append]
      · rw [List.getLast?_append, hlast2]
        rfl
      · simp [hplen1]
      · rw [hassocP p10 (i :: S) j]
        exact hhead1
      · rw [hassocP p10 (i :: S) j, ← hassocK k10]
        exact find_terminal_mono d g f1 (le_max_left f1 f2) hft1
      · rw [List.map_append]
        refine yields_append d g (max f1 f2)
          ((k1rest.map (fun s => b :: s)).map (fun s => K ++ s))
          (ks2.map (fun s => K ++ s))
          ⟨K ++ (b :: k10), (p10 ++ [j]) ++ i :: S, l10⟩
          ⟨K ++ (b :: k1L), (p1L ++ [j]) ++ i :: S, l1L⟩
          ⟨K ++ k2L, p2L ++ i :: S, l2L⟩ ?_ ?_
        · rw [hassocP p10 (i :: S) j, hassocP p1L (i :: S) j,
            ← hassocK k10, ← hassocK k1L, ← hmapeq]
          exact yields_mono d g (le_max_left f1 f2) _ _ _ hyield1
        · rw [hks2, List.map_cons]
          obtain ⟨stail, hstail⟩ := head?_eq_cons (p1L ++ j :: i :: S) l1L hheadL
          refine ⟨⟨K ++ k20, p20 ++ i :: S, l20⟩, ?_, rfl,
            yields_mono d g (le_max_right f1 f2) _ _ _ hyield2⟩
          rw [next_backtrack_bind d g (max f1 f2)
            ⟨K ++ (b :: k1L), (p1L ++ [j]) ++ i :: S, l1L⟩ l1L stail
            (by rw [show (⟨K ++ (b :: k1L), (p1L ++ [j]) ++ i :: S, l1L⟩ :
                Completer).index_stack = (p1L ++ [j]) ++ i :: S from rfl,
              hassocP p1L (i :: S) j]; exact hstail)
            hl1L hchildL]
          rw [except_bind_ok]
          refine ⟨(some j2, j2 :: i :: S, K ++ [sb]), ?_, ?_⟩
          · show Completer.backtrack d g ((p1L ++ [j]) ++ i :: S) (K ++ (b :: k1L)) =
              .ok (some j2, j2 :: i :: S, K ++ [sb])
            rw [hassocP p1L (i :: S) j]
            rw [backtrack_found d g p1L (K ++ (b :: k1L)) hsibz j sb i S hsib hsb0]
            have htake : (K ++ (b :: k1L)).take
                ((K ++ (b :: k1L)).length - (p1L.length + 1)) = K := by
              have hl : (K ++ (b :: k1L)).length - (p1L.length + 1) = K.length := by
                simp [hplL]
              rw [hl]
              exact List.take_left K (b :: k1L)
            rw [htake]
            simp only [Completer._follow, bind, Except.bind, hfol2]
            rfl
          · show Completer.find_terminal d g (max f1 f2) j2 (j2 :: i :: S)
                (K ++ [sb]) >>=
              nextStep d ⟨K ++ (b :: k1L), (p1L ++ [j]) ++ i :: S, l1L⟩ =
              .ok (true, ⟨K ++ k20, p20 ++ i :: S, l20⟩)
            rw [find_terminal_mono d g f2 (le_max_right f1 f2) hft2]
            rfl

/-- C2 fails as stated: on a dictionary whose root has a value (it stores
the empty key) with its correct guide (no children, so both guide slots of
the root are 0), the enumeration started at the resolved root for the empty
prefix yields the stored key "" on the first `next` call and then — because
`_last_index` equals ROOT again — re-enters the first-call branch and
yields "" a second time (and forever after): `keys("")` does not yield
every stored key exactly once, and the iteration never terminates. -/
theorem C2_counterexample :
    Dictionary.contains (⟨[256, 0]⟩ : Dictionary) [] = .ok true ∧
    Dictionary.follow_bytes (⟨[256, 0]⟩ : Dictionary) [] Dictionary.ROOT =
      .ok (some Dictionary.ROOT) ∧
    Completer.next (⟨[256, 0]⟩ : Dictionary) (⟨[0, 0]⟩ : Guide) 5
        (Completer.start (⟨[0, 0]⟩ : Guide) Dictionary.ROOT []) =
      .ok (true, ⟨[], [0], 0⟩) ∧
    Completer.next (⟨[256, 0]⟩ : Dictionary) (⟨[0, 0]⟩ : Guide) 5 ⟨[], [0], 0⟩ =
      .ok (true, ⟨[], [0], 0⟩) := by
  refine ⟨by decide, by decide, by decide, by decide⟩

/-- C2 amended: `keys(p)` returns the empty list when the prefix does not
resolve, and — when the prefix resolves to a start node that admits an
exact guide-enumeration certificate, whose guide sibling slot is readable,
and which is not a valued root (the counterexample's failure mode) — it
returns, for suitable fuel, exactly the certificate's suffixes appended to
the prefix: precisely the stored keys extending the prefix, each exactly
once, in the guide's order. -/
theorem C2_keys (d : Dictionary) (g : Guide) (pfx : List Nat) :
    (d.follow_bytes pfx Dictionary.ROOT = .ok none →
      ∀ fuel steps, keys d g fuel steps pfx = .ok []) ∧
    (∀ start ks s0,
      d.follow_bytes pfx Dictionary.ROOT = .ok (some start) →
      g.size ≠ 0 →
      g.sibling start = .ok s0 →
      (start = Dictionary.ROOT → d.has_value start ≠ .ok true) →
      EnumNodeX d g start ks →
      ∃ fuel steps,
        keys d g fuel steps pfx = .ok (ks.map (fun s => pfx ++ s)) ∧
        (∀ k, (∀ x ∈ k, x < 256) →
          (k ∈ ks.map (fun s => pfx ++ s) ↔ pfx <+: k ∧ d.contains k = .ok true)) ∧
        (ks.map (fun s => pfx ++ s)).Nodup) := by
  constructor
  · intro hres fuel steps
    unfold keys
    simp only [bind, Except.bind, hres]
    rfl
  · intro start ks s0 hres hg hsib hroot hder
    obtain ⟨fuel, k0, krest, kL, l0, p0, pL, lL, hks, hlast, hplen, hhead, hft,
      hyield, hexit⟩ := enum_run d g start ks hder pfx [] hroot
    obtain ⟨hplL, hsibz, hheadL, hlL, hchildL⟩ := hexit
    obtain ⟨hbytes, hnodup, hiff⟩ := enum_content d g start ks hder
    have hcs : Completer.start g start pfx = ⟨pfx, [start], Dictionary.ROOT⟩ := by
      unfold Completer.start
      rw [if_pos hg]
    have hnext1 : Completer.next d g fuel ⟨pfx, [start], Dictionary.ROOT⟩ =
        .ok (true, ⟨pfx ++ k0, p0 ++ [start], l0⟩) := by
      rw [next_first_bind d g fuel ⟨pfx, [start], Dictionary.ROOT⟩ start [] rfl rfl]
      rw [except_bind_ok]
      exact ⟨(some l0, p0 ++ [start], pfx ++ k0), hft, rfl⟩
    have hyields : YieldsFrom d g fuel ⟨pfx, [start], Dictionary.ROOT⟩
        (ks.map (fun s => pfx ++ s)) ⟨pfx ++ kL, pL ++ [start], lL⟩ := by
      rw [hks, List.map_cons]
      exact ⟨⟨pfx ++ k0, p0 ++ [start], l0⟩, hnext1, rfl, hyield⟩
    obtain ⟨stail, hstail⟩ := head?_eq_cons (pL ++ [start]) lL hheadL
    have hnextF : Completer.next d g fuel ⟨pfx ++ kL, pL ++ [start], lL⟩ =
        .ok (false, ⟨(pfx ++ kL).take ((pfx ++ kL).length - (pL.length + 1)), [],
          lL⟩) := by
      rw [next_backtrack_bind d g fuel ⟨pfx ++ kL, pL ++ [start], lL⟩ lL stail
        hstail hlL hchildL]
      rw [except_bind_ok]
      exact ⟨(none, [], (pfx ++ kL).take ((pfx ++ kL).length - (pL.length + 1))),
        backtrack_exhausted d g pL (pfx ++ kL) hsibz start s0 hsib, rfl⟩
    have hnk := nextKeys_of_yields d g fuel (ks.map (fun s => pfx ++ s))
      ⟨pfx, [start], Dictionary.ROOT⟩ ⟨pfx ++ kL, pL ++ [start], lL⟩
      ⟨(pfx ++ kL).take ((pfx ++ kL).length - (pL.length + 1)), [], lL⟩
      hyields hnextF
    refine ⟨fuel, (ks.map (fun s => pfx ++ s)).length + 1, ?_, ?_, ?_⟩
    · unfold keys
      simp only [bind, Except.bind, hres]
      rw [hcs]
      exact hnk
    · intro k hk256
      constructor
      · intro hkmem
        obtain ⟨s, hsks, rfl⟩ := List.mem_map.mp hkmem
        refine ⟨List.prefix_append pfx s, ?_⟩
        obtain ⟨jj, hfb, hvj⟩ :=
          (hiff s (fun x hx => hk256 x (List.mem_append_right pfx hx))).mp hsks
        unfold Dictionary.contains
        rw [follow_bytes_append d pfx s Dictionary.ROOT]
        simp only [bind, Except.bind, hres, hfb]
        exact hvj
      · rintro ⟨⟨s, rfl⟩, hcont⟩
        unfold Dictionary.contains at hcont
        rw [follow_bytes_append d pfx s Dictionary.ROOT] at hcont
        simp only [bind, Except.bind, hres] at hcont
        cases hfb : d.follow_bytes s start with
        | error e => rw [hfb] at hcont; simp at hcont
        | ok o =>
          rw [hfb] at hcont
          cases o with
          | none => simp [pure, Except.pure] at hcont
          | some jj =>
            exact List.mem_map.mpr ⟨s,
              (hiff s (fun x hx => hk256 x (List.mem_append_right pfx hx))).mpr
                ⟨jj, hfb, hcont⟩, rfl⟩
    · exact List.Nodup.map (fun a b hab => List.append_cancel_left hab) hnodup

/-- Closed instance of `C2_keys` on `dictAB`/`guideAB` (stored keys "a" and
"ab"): from the resolved prefix "a" the enumeration returns exactly the two
stored keys extending it, in guide order. -/
theorem C2_keys_witness :
    ∃ fuel steps, keys dictAB guideAB fuel steps [97] = .ok [[97], [97, 98]] := by
  have h3 : EnumNodeX dictAB guideAB 3 [[]] :=
    EnumNodeX.mk 3 true 0 [] [] (by decide) (by decide) (EnumChainX.zero 3)
      (by decide) (Or.inl rfl)
  have hc1 : EnumChainX dictAB guideAB 1 98 [[98]] [98] :=
    EnumChainX.step 1 98 3 [[]] 0 [] [] (by decide) (by decide) (by decide)
      (by decide) h3 (by decide) (EnumChainX.zero 1) (by decide)
  have hder : EnumNodeX dictAB guideAB 1 [[], [98]] :=
    EnumNodeX.mk 1 true 98 [[98]] [98] (by decide) (by decide) hc1
      (by decide) (Or.inl rfl)
  obtain ⟨fuel, steps, hk, _, _⟩ :=
    (C2_keys dictAB guideAB [97]).2 1 [[], [98]] 0 (by decide) (by decide)
      (by decide) (by decide) hder
  exact ⟨fuel, steps, by simpa using hk⟩
